import Mathlib

/-!
Verification of the gh-tagger utilities (gh-tag-fetcher, gh-tag-creator and
the interactive tagging variant) against their natural-language specification.

Go strings are modelled as `List Char` (all strings manipulated by the tools
are ASCII, where bytes and code points coincide).  The Masterminds/semver
library functions used by the tools (NewVersion, Compare, IncMajor, IncMinor,
IncPatch, String) are embedded faithfully, including 64-bit unsigned
arithmetic (explicit `% 2 ^ 64`) and the 64-bit bound of strconv.ParseUint.
The GitHub API collaborators are modelled as explicit data / function
arguments, and the API requests issued by the tools are reified as values so
that theorems can speak about which calls are made.
-/

/-! ### Character and string helpers -/

/-- Numeric value of an ASCII decimal digit character. -/
def digitVal (c : Char) : Nat := c.toNat - 48

/-- Value of a decimal digit string, as accumulated by the conversion loop of
Go's strconv.ParseUint. -/
def digitsToNat (s : List Char) : Nat := s.foldl (fun n c => n * 10 + digitVal c) 0

/-- Model of Go strconv.ParseUint(s, 10, 64): succeeds exactly when s is a
nonempty string of decimal digits whose value fits in 64 bits; on overflow or
any non-digit character Go reports an error, modelled as none. -/
def parseUint64 (s : List Char) : Option Nat :=
  if s ≠ [] ∧ s.all Char.isDigit = true ∧ digitsToNat s < 2 ^ 64 then some (digitsToNat s)
  else none

/-- Model of Go strings.Split(s, sep) for a one-character separator: the
result never is empty, and splitting the empty string yields one empty part. -/
def splitOnChar (sep : Char) : List Char → List (List Char)
  | [] => [[]]
  | c :: t =>
    if c = sep then [] :: splitOnChar sep t
    else
      match splitOnChar sep t with
      | s :: ss => (c :: s) :: ss
      | [] => [[c]]

/-- Model of Go strings.TrimPrefix. -/
def trimPre (p s : List Char) : List Char :=
  if p.isPrefixOf s then s.drop p.length else s

/-- Three-way comparison of Go strings (byte-wise lexicographic ordering;
for the ASCII strings handled here bytes coincide with code points). -/
def goStrCmp : List Char → List Char → Int
  | [], [] => 0
  | [], _ :: _ => -1
  | _ :: _, [] => 1
  | a :: s, b :: t =>
    if a.toNat < b.toNat then -1
    else if b.toNat < a.toNat then 1
    else goStrCmp s t

/-- The ASCII character of a decimal digit. -/
def decDigitChar : Nat → Char
  | 0 => '0'
  | 1 => '1'
  | 2 => '2'
  | 3 => '3'
  | 4 => '4'
  | 5 => '5'
  | 6 => '6'
  | 7 => '7'
  | 8 => '8'
  | _ => '9'

/-- Decimal digits of a natural number, most significant digit first, as
printed by Go's fmt %d verb for unsigned integers.  The first argument is
recursion fuel (any value at least the number itself is enough, since the
number shrinks by a factor of ten each step). -/
def natDigitsGo : Nat → Nat → List Char → List Char
  | 0, n, acc => decDigitChar n :: acc
  | fuel + 1, n, acc =>
    if n < 10 then decDigitChar n :: acc
    else natDigitsGo fuel (n / 10) (decDigitChar (n % 10) :: acc)

/-- Decimal representation of a natural number. -/
def natDigits (n : Nat) : List Char := natDigitsGo n n []

/-! ### The semantic version data model (Masterminds/semver v3) -/

/-- Model of semver.Version: three numeric components (uint64 in Go, held as
Nat bounded by the parser) plus the raw pre-release and build-metadata
strings.  The `original` field of the Go struct is dropped: no code in this
repository reads it. -/
structure SemVer where
  major : Nat
  minor : Nat
  patch : Nat
  pre : List Char
  metadata : List Char
deriving DecidableEq, Repr

/-- The characters admitted in pre-release and metadata identifiers by
Masterminds/semver: ASCII alphanumerics and the hyphen. -/
def allowedChar (c : Char) : Bool :=
  c.isDigit || (65 ≤ c.toNat && c.toNat ≤ 90) || (97 ≤ c.toNat && c.toNat ≤ 122) || c = '-'

/-- Model of Masterminds/semver containsOnly. -/
def containsOnly (s : List Char) (set : Char → Bool) : Bool := s.all set

/-- Model of Masterminds/semver validatePrerelease: every dot-separated
segment is either all digits without a redundant leading zero, or made of
allowed characters only. -/
def validatePrerelease (p : List Char) : Bool :=
  (splitOnChar '.' p).all fun seg =>
    if containsOnly seg Char.isDigit then !(decide (seg.length > 1) && seg.head? == some '0')
    else containsOnly seg allowedChar

/-- Model of Masterminds/semver validateMetadata. -/
def validateMetadata (p : List Char) : Bool :=
  (splitOnChar '.' p).all fun seg => containsOnly seg allowedChar

/-- One optional ".NUMBER" group of the semver regular expression, matched
against the remaining input. -/
def parseOptDotNum : List Char → Option (Option (List Char) × List Char)
  | '.' :: t =>
    let ds := t.takeWhile Char.isDigit
    if ds.isEmpty then none else some (some ds, t.dropWhile Char.isDigit)
  | r => some (none, r)

/-- A nonempty sequence of dot-separated, nonempty identifiers over the
allowed character set, as required by the pre-release and metadata groups of
the semver regular expression. -/
def regexIdents (p : List Char) : Bool :=
  (splitOnChar '.' p).all fun seg => !seg.isEmpty && containsOnly seg allowedChar

/-- The "(-PRERELEASE)?(+METADATA)?" tail of the anchored semver regular
expression (a pre-release never contains '+', so it extends to the first '+'
or to the end of the input). -/
def parseVerTail : List Char → Option (List Char × List Char)
  | [] => some ([], [])
  | '-' :: t =>
    let pre := t.takeWhile (· != '+')
    if regexIdents pre then
      match t.dropWhile (· != '+') with
      | [] => some (pre, [])
      | '+' :: m => if regexIdents m then some (pre, m) else none
      | _ => none
    else none
  | '+' :: m => if regexIdents m then some ([], m) else none
  | _ => none

/-- Model of Masterminds/semver NewVersion, the lenient parser used by both
tools: anchored regex v?NUM(.NUM)?(.NUM)?(-PRE)?(+META)? with missing minor
and patch defaulting to 0, each numeric component read by ParseUint (64-bit),
then validatePrerelease / validateMetadata on the optional parts.  Returns
none exactly when the Go function returns an error. -/
def NewVersion (input : List Char) : Option SemVer :=
  let s := match input with
    | 'v' :: t => t
    | other => other
  let mj := s.takeWhile Char.isDigit
  let r1 := s.dropWhile Char.isDigit
  if mj.isEmpty then none
  else
    match parseOptDotNum r1 with
    | none => none
    | some (mn, r2) =>
      match parseOptDotNum r2 with
      | none => none
      | some (pt, r3) =>
        match parseVerTail r3 with
        | none => none
        | some (pre, meta) =>
          let major := digitsToNat mj
          let minor := match mn with | some d => digitsToNat d | none => 0
          let patch := match pt with | some d => digitsToNat d | none => 0
          if major < 2 ^ 64 ∧ minor < 2 ^ 64 ∧ patch < 2 ^ 64 ∧
              (pre = [] ∨ validatePrerelease pre = true) ∧
              (meta = [] ∨ validateMetadata meta = true) then
            some ⟨major, minor, patch, pre, meta⟩
          else none

/-! ### Comparison (semantic version precedence) -/

/-- Model of Masterminds/semver compareSegment. -/
def compareSegment (v o : Nat) : Int :=
  if v < o then -1 else if o < v then 1 else 0

/-- Model of Masterminds/semver comparePrePart: equal parts are equal; an
empty placeholder is smaller than any nonempty part; numeric parts (those
accepted by ParseUint) compare by value and precede alphanumeric parts;
alphanumeric parts compare as Go strings. -/
def comparePrePart (s o : List Char) : Int :=
  if s = o then 0
  else if s = [] then (if o ≠ [] then -1 else 1)
  else if o = [] then (if s ≠ [] then 1 else -1)
  else
    match parseUint64 o, parseUint64 s with
    | none, none => if goStrCmp s o = 1 then 1 else -1
    | none, some _ => -1
    | some _, none => 1
    | some oi, some si => if si > oi then 1 else -1

/-- The loop of Masterminds/semver comparePrerelease: walk both segment lists
up to the longer length, using the empty string as placeholder, and return
the first nonzero part comparison. -/
def comparePreLists : List (List Char) → List (List Char) → Int
  | [], [] => 0
  | [], o :: os =>
    let d := comparePrePart [] o
    if d ≠ 0 then d else comparePreLists [] os
  | s :: ss, [] =>
    let d := comparePrePart s []
    if d ≠ 0 then d else comparePreLists ss []
  | s :: ss, o :: os =>
    let d := comparePrePart s o
    if d ≠ 0 then d else comparePreLists ss os
termination_by ss os => ss.length + os.length

/-- Model of Masterminds/semver comparePrerelease. -/
def comparePrerelease (v o : List Char) : Int :=
  comparePreLists (splitOnChar '.' v) (splitOnChar '.' o)

/-- Model of semver.Version.Compare: major, minor, patch numerically, then a
version without pre-release is greater than one with, then pre-release
comparison; build metadata is ignored. -/
def SemVer.compare (v o : SemVer) : Int :=
  if compareSegment v.major o.major ≠ 0 then compareSegment v.major o.major
  else if compareSegment v.minor o.minor ≠ 0 then compareSegment v.minor o.minor
  else if compareSegment v.patch o.patch ≠ 0 then compareSegment v.patch o.patch
  else if v.pre = [] ∧ o.pre = [] then 0
  else if v.pre = [] then 1
  else if o.pre = [] then -1
  else comparePrerelease v.pre o.pre

/-! ### Increment and bump -/

/-- The version 0.0.0, i.e. semver.MustParse("v0.0.0"). -/
def zeroVer : SemVer := ⟨0, 0, 0, [], []⟩

/-- Model of semver.Version.IncMajor: clears metadata and pre-release, zeroes
minor and patch, increments major (uint64 arithmetic wraps). -/
def IncMajor (v : SemVer) : SemVer := ⟨(v.major + 1) % 2 ^ 64, 0, 0, [], []⟩

/-- Model of semver.Version.IncMinor. -/
def IncMinor (v : SemVer) : SemVer := ⟨v.major, (v.minor + 1) % 2 ^ 64, 0, [], []⟩

/-- Model of semver.Version.IncPatch: when a pre-release is present it is
dropped and the patch number is kept; otherwise patch is incremented.  Build
metadata is cleared in both cases. -/
def IncPatch (v : SemVer) : SemVer :=
  if v.pre ≠ [] then ⟨v.major, v.minor, v.patch, [], []⟩
  else ⟨v.major, v.minor, (v.patch + 1) % 2 ^ 64, [], []⟩

/-- Model of bumpVersion from gh-tag-fetcher.go (the interactive variant
holds an identical copy): a nil latest version is replaced by
MustParse("v0.0.0"); the panic on an unknown bump kind is modelled as none. -/
def bumpVersion (version : Option SemVer) (bump : String) : Option SemVer :=
  let v := version.getD zeroVer
  if bump = "major" then some (IncMajor v)
  else if bump = "minor" then some (IncMinor v)
  else if bump = "patch" then some (IncPatch v)
  else none

/-! ### Formatting -/

/-- Model of semver.Version.String(): MAJOR.MINOR.PATCH with %d, then
"-PRERELEASE" when present, then "+METADATA" when present. -/
def SemVer.toStr (v : SemVer) : List Char :=
  natDigits v.major ++ '.' :: natDigits v.minor ++ '.' :: natDigits v.patch ++
    (if v.pre = [] then [] else '-' :: v.pre) ++
    (if v.metadata = [] then [] else '+' :: v.metadata)

/-- Model of versionToString from gh-tag-fetcher.go: empty for nil, otherwise
"v" prepended to String(). -/
def versionToString (v : Option SemVer) : List Char :=
  match v with
  | none => []
  | some v => 'v' :: v.toStr

/-! ### Selection of the latest tag -/

/-- Insertion of a version into a list, ordered by ByVersion.Less. -/
def insertV (x : SemVer) : List SemVer → List SemVer
  | [] => [x]
  | y :: ys => if x.compare y < 0 then x :: y :: ys else y :: insertV x ys

/-- Model of sort.Sort(ByVersion(tags)): a sorting algorithm (insertion sort)
whose output is ordered by ByVersion.Less, i.e. by Compare < 0. -/
def sortVersions : List SemVer → List SemVer
  | [] => []
  | x :: xs => insertV x (sortVersions xs)

/-- The ref name trimmed in fetchLatestTag. -/
def refsTagsStr : List Char := "refs/tags/".toList

/-- Model of fetchLatestTag from gh-tag-fetcher.go (the interactive variant
holds an identical copy): the argument stands for the list of ref names
returned by the Git.ListMatchingRefs collaborator; each name is stripped of
the refs/tags/ prefix, names that fail to parse as semantic versions are
skipped silently, and the last element of the sorted parsed list is returned
(none when nothing parsed, modelling the nil pointer). -/
def fetchLatestTag (refs : List (List Char)) : Option SemVer :=
  let tags := refs.filterMap fun r => NewVersion (trimPre refsTagsStr r)
  if tags.isEmpty then none else (sortVersions tags).getLast?

/-! ### Reified GitHub API requests -/

/-- A GitHub API request issued by one of the tools, reified as data so that
theorems can state which calls are made and with which arguments. -/
inductive ApiCall
  | listByOrg (org : List Char)
  | listMatchingRefs (org name : List Char)
  | getCommit (org name branch : List Char)
  | createRef (org name ref sha : List Char)
deriving DecidableEq, Repr

/-- Error message of both tools for a missing GITHUB_TOKEN. -/
def errNoToken : List Char := "environment variable not set: GITHUB_TOKEN".toList

/-! ### gh-tag-fetcher.go -/

namespace Fetcher

/-- The fields of *github.Repository read by gh-tag-fetcher.go. -/
structure GhRepo where
  name : List Char
  fullName : List Char
deriving DecidableEq, Repr

/-- The repo struct of gh-tag-fetcher.go. -/
structure repo where
  repo : GhRepo
  latestTag : Option SemVer
  newTag : Option SemVer
deriving DecidableEq, Repr

/-- Error message for a missing organization argument. -/
def errMissingOrg : List Char := "missing argument: github organization".toList

/-- Error message for surplus arguments. -/
def errTooMany (n : Nat) : List Char :=
  "too many arguments: expected only 1 argument, got ".toList ++ natDigits n

/-- Error message for an invalid -bump flag. -/
def errBadBump (bump : String) : List Char :=
  "bump flag expects one of [patch minor major], got: ".toList ++ bump.toList

/-- Model of parseFlags from gh-tag-fetcher.go: the positional arguments,
then the GITHUB_TOKEN environment variable, then the -bump flag are validated
in that order; log.Fatalf is modelled as Except.error (the process exits with
a non-zero status before anything else runs).  Returns the organization. -/
def parseFlags (args : List (List Char)) (token : List Char) (bump : String) :
    Except (List Char) (List Char) :=
  match args with
  | [] => .error errMissingOrg
  | [o] =>
    if token = [] then .error errNoToken
    else if bump = "patch" ∨ bump = "minor" ∨ bump = "major" then .ok o
    else .error (errBadBump bump)
  | args => .error (errTooMany args.length)

/-- Model of fetchRepos from gh-tag-fetcher.go: the argument pairs each
repository of the organization with the tag ref names served for it by the
Git.ListMatchingRefs collaborator. -/
def fetchRepos (bump : String) (gh : List (GhRepo × List (List Char))) : List repo :=
  gh.map fun gr =>
    let latest := fetchLatestTag gr.2
    { repo := gr.1, latestTag := latest, newTag := bumpVersion latest bump }

/-- Model of reposToStdOutput from gh-tag-fetcher.go: one standard-output
line per repository, of the form "github.com/FULLNAME NEWTAG". -/
def reposToStdOutput (repos : List repo) : List (List Char) :=
  repos.map fun r => "github.com/".toList ++ r.repo.fullName ++ ' ' :: versionToString r.newTag

/-- Model of the main flow of gh-tag-fetcher.go: parse flags, then query the
API and emit one line per repository to standard output.  The second
component records the GitHub API calls made; a flag error aborts before any
call. -/
def mainFetcher (args : List (List Char)) (token : List Char) (bump : String)
    (gh : List (GhRepo × List (List Char))) :
    Except (List Char) (List (List Char)) × List ApiCall :=
  match parseFlags args token bump with
  | .error e => (.error e, [])
  | .ok org =>
    (.ok (reposToStdOutput (fetchRepos bump gh)),
      ApiCall.listByOrg org :: gh.map fun gr => ApiCall.listMatchingRefs org gr.1.name)

end Fetcher

/-! ### gh-tag-creator.go -/

namespace Creator

/-- The fields of *github.Repository read by gh-tag-creator.go. -/
structure GhRepo where
  ownerLogin : List Char
  name : List Char
  fullName : List Char
  defaultBranch : List Char
deriving DecidableEq, Repr

/-- The repo struct of gh-tag-creator.go. -/
structure repo where
  repo : GhRepo
  tag : List Char
deriving DecidableEq, Repr

/-- Error message for an input line without exactly two tokens. -/
def errTokens (line : List Char) : List Char :=
  "error parsing input line: expected 2 tokens separated with a space: ".toList ++ line

/-- Error message for an unparseable repository reference. -/
def errRepoURL (line : List Char) : List Char :=
  "error parsing input line: invalid repo URL: ".toList ++ line

/-- Error message for empty standard input. -/
def errNoInput : List Char := "no input".toList

/-- Error message for a declined confirmation. -/
def errAbort : List Char := "abort".toList

/-- The github.com/ prefix trimmed from repository references. -/
def githubComStr : List Char := "github.com/".toList

/-- The line-parsing step of fetchRepos in gh-tag-creator.go: exactly two
space-separated tokens, the first of which (after trimming an optional
github.com/ prefix) splits into exactly org/name. -/
def parseLine (line : List Char) : Except (List Char) (List Char × List Char × List Char) :=
  match splitOnChar ' ' line with
  | [repoURL, tag] =>
    match splitOnChar '/' (trimPre githubComStr repoURL) with
    | [org, name] => .ok (org, name, tag)
    | _ => .error (errRepoURL line)
  | _ => .error (errTokens line)

/-- Model of fetchRepos from gh-tag-creator.go: each input line is parsed and
the repository information fetched (the get argument models the
Repositories.Get collaborator); the first malformed line aborts the run via
log.Fatalf, modelled as Except.error. -/
def fetchRepos (get : List Char → List Char → GhRepo) :
    List (List Char) → Except (List Char) (List repo)
  | [] => .ok []
  | line :: rest =>
    match parseLine line with
    | .error e => .error e
    | .ok (org, name, tag) =>
      match fetchRepos get rest with
      | .error e => .error e
      | .ok rs => .ok ({ repo := get org name, tag := tag } :: rs)

/-- Model of reposToStdOutput from gh-tag-creator.go. -/
def reposToStdOutput (repos : List repo) : List (List Char) :=
  repos.map fun r => githubComStr ++ r.repo.fullName ++ ' ' :: r.tag

/-- Model of createTags from gh-tag-creator.go: for each repository, the
latest commit of its default branch is fetched (the commitSha argument models
the Repositories.GetCommit collaborator) and exactly one ref named
refs/tags/TAG is created, pointing at that commit's SHA. -/
def createTags (commitSha : List Char → List Char → List Char → List Char)
    (repos : List repo) : List ApiCall :=
  repos.map fun r =>
    ApiCall.createRef r.repo.ownerLogin r.repo.name
      (refsTagsStr ++ r.tag)
      (commitSha r.repo.ownerLogin r.repo.name r.repo.defaultBranch)

/-- Model of the main flow of gh-tag-creator.go: a missing token, empty
input, or any malformed input line aborts with an error before any tag is
created; otherwise, unless -yes was given, a confirmation character is read
from the terminal and anything but y or Y aborts; finally the tags are
created.  The second component records the ref-creation calls made. -/
def mainCreator (token : List Char) (yes : Bool) (input : List (List Char))
    (get : List Char → List Char → GhRepo)
    (commitSha : List Char → List Char → List Char → List Char)
    (ttyAnswer : Char) :
    Except (List Char) Unit × List ApiCall :=
  if token = [] then (.error errNoToken, [])
  else if input = [] then (.error errNoInput, [])
  else
    match fetchRepos get input with
    | .error e => (.error e, [])
    | .ok repos =>
      if ¬yes ∧ ttyAnswer ≠ 'y' ∧ ttyAnswer ≠ 'Y' then (.error errAbort, [])
      else (.ok (), createTags commitSha repos)

end Creator

/-! ### The interactive variant (second part of src/gh-tag-fetcher.go) -/

namespace Interactive

/-- The organization hard-coded in the interactive tool. -/
def orgStr : List Char := "conduitio".toList

/-- The fields of *github.Repository read by the interactive createTags. -/
structure GhRepo where
  name : List Char
  defaultBranch : List Char
deriving DecidableEq, Repr

/-- One selected repository as passed to the interactive createTags; the
newTag field holds the bumped version, which the surrounding flow always
sets. -/
structure repo where
  repo : GhRepo
  newTag : SemVer
deriving DecidableEq, Repr

/-- The ref name stem used by the interactive createTags (as written in the
source: "ref/tags/v", without the s of refs). -/
def refTagsVStr : List Char := "ref/tags/v".toList

/-- The warning printed for a declined per-repository confirmation. -/
def skipStr : List Char := "Skip".toList

/-- The loop of the interactive createTags, starting at repository index i:
for each selected repository the latest commit of its default branch is
fetched (commitSha models Repositories.GetCommit), the user is asked to
confirm (answer i is the reply for the i-th repository), a Skip warning is
printed on a negative answer, and a ref named refTagsVStr ++ newTag is
created at the commit in every case.  Returns the ref-creation calls and the
warnings printed. -/
def createTagsFrom (commitSha : List Char → List Char → List Char)
    (answer : Nat → Bool) : Nat → List repo → List ApiCall × List (List Char)
  | _, [] => ([], [])
  | i, r :: rest =>
    let sha := commitSha r.repo.name r.repo.defaultBranch
    let call := ApiCall.createRef orgStr r.repo.name (refTagsVStr ++ r.newTag.toStr) sha
    let next := createTagsFrom commitSha answer (i + 1) rest
    (call :: next.1, (if answer i then [] else [skipStr]) ++ next.2)

/-- Model of createTags from the interactive variant. -/
def createTags (commitSha : List Char → List Char → List Char)
    (answer : Nat → Bool) (repos : List repo) : List ApiCall × List (List Char) :=
  createTagsFrom commitSha answer 0 repos

end Interactive

/-! ### Well-formedness and comparison keys (proof infrastructure) -/

/-- A well-formed pre-release segment: nonempty, over the allowed character
set, and without a redundant leading zero when it is all digits.  Every
pre-release segment produced by NewVersion satisfies this. -/
def validSeg (s : List Char) : Bool :=
  !s.isEmpty && s.all allowedChar &&
    (!(s.all Char.isDigit) || decide (s.length ≤ 1) || !(s.head? == some '0'))

/-- Well-formedness of a version as guaranteed by NewVersion: the pre-release
is absent or made of well-formed segments.  Version comparison is a total
preorder on well-formed versions. -/
def ValidVer (v : SemVer) : Bool :=
  v.pre.isEmpty || (splitOnChar '.' v.pre).all validSeg

/-- Well-formedness of a pre-release string. -/
def ValidPre (p : List Char) : Prop :=
  p = [] ∨ (splitOnChar '.' p).all validSeg = true

/-- Comparison key of a pre-release part under comparePrePart: the empty
placeholder, a 64-bit number, or a plain string. -/
inductive PreKey
  | emp
  | num (n : Nat)
  | str (s : List Char)
deriving DecidableEq

/-- The key of a pre-release part. -/
def toKey (s : List Char) : PreKey :=
  if s = [] then .emp
  else
    match parseUint64 s with
    | some n => .num n
    | none => .str s

/-- Comparison of pre-release keys: empty < numeric (by value) < string
(Go string order). -/
def keyCmp : PreKey → PreKey → Int
  | .emp, .emp => 0
  | .emp, _ => -1
  | _, .emp => 1
  | .num a, .num b => if a < b then -1 else if b < a then 1 else 0
  | .num _, .str _ => -1
  | .str _, .num _ => 1
  | .str a, .str b => goStrCmp a b

/-- Lexicographic comparison of key lists, padding the shorter list with the
empty placeholder (mirror of the comparePrerelease loop). -/
def keyListCmp : List PreKey → List PreKey → Int
  | [], [] => 0
  | [], b :: bs => if keyCmp .emp b ≠ 0 then keyCmp .emp b else keyListCmp [] bs
  | a :: as, [] => if keyCmp a .emp ≠ 0 then keyCmp a .emp else keyListCmp as []
  | a :: as, b :: bs => if keyCmp a b ≠ 0 then keyCmp a b else keyListCmp as bs
termination_by as bs => as.length + bs.length

/-- The pre-release block at the end of Compare (definitionally the tail of
SemVer.compare, isolated for the order lemmas). -/
def preBlockCmp (p q : List Char) : Int :=
  if p = [] ∧ q = [] then 0
  else if p = [] then 1
  else if q = [] then -1
  else comparePrerelease p q

/-! ### Concrete data used in the claims -/

namespace Ex

def t1 : List Char := "v1.2.0".toList
def t2 : List Char := "v1.10.0".toList
def t3 : List Char := "v1.9.0".toList

/-- The tag set of the selector claim. -/
def tagsC1 : List (List Char) := [t1, t2, t3]

/-- 1.2.3-rc1, i.e. NewVersion("1.2.3-rc1"). -/
def verPre : SemVer := ⟨1, 2, 3, ['r', 'c', '1'], []⟩

/-- The input string 1.2.3-rc1. -/
def strRc1 : List Char := "1.2.3-rc1".toList

/-- The tag string whose major component is the largest 64-bit value. -/
def strMaxMajor : List Char := "18446744073709551615.0.0".toList

/-- The bump kinds, and one invalid bump value. -/
def patchS : String := "patch"
def minorS : String := "minor"
def majorS : String := "major"
def oopsS : String := "oops"


/-- 1.2.3. -/
def ver123 : SemVer := ⟨1, 2, 3, [], []⟩

/-- The parseable version with the largest 64-bit major component. -/
def verMaxMajor : SemVer := ⟨2 ^ 64 - 1, 0, 0, [], []⟩

def refA1 : List Char := "refs/tags/v1.0.0".toList
def refA2 : List Char := "refs/tags/v1.1.0".toList
def repoA : Fetcher.GhRepo := { name := "A".toList, fullName := "org/A".toList }
def repoB : Fetcher.GhRepo := { name := "B".toList, fullName := "org/B".toList }

/-- Organization data of the end-to-end claim: repository A with tags v1.0.0
and v1.1.0, repository B with no tags. -/
def ghC5 : List (Fetcher.GhRepo × List (List Char)) := [(repoA, [refA1, refA2]), (repoB, [])]

def lineA : List Char := "github.com/org/A v1.2.0".toList
def lineB : List Char := "github.com/org/B v0.1.0".toList
def orgArg : List Char := "org".toList
def tokenEx : List Char := "tok".toList

/-- An input line without two space-separated tokens. -/
def badLine : List Char := "garbage".toList

/-- An input for the creator whose second line is malformed. -/
def badInput : List (List Char) := [lineA, badLine]

/-- A Repositories.Get collaborator for the creator examples. -/
def getEx : List Char → List Char → Creator.GhRepo := fun o n =>
  { ownerLogin := o, name := n, fullName := o ++ '/' :: n, defaultBranch := "main".toList }

def shaEx : List Char := "abc123".toList

/-- A Repositories.GetCommit collaborator returning shaEx. -/
def commitShaEx : List Char → List Char → List Char → List Char := fun _ _ _ => shaEx

/-- A GetCommit collaborator for the interactive variant. -/
def commitShaI : List Char → List Char → List Char := fun _ _ => shaEx

/-- A selected repository for the interactive claims. -/
def iRepo : Interactive.repo :=
  { repo := { name := "conduit".toList, defaultBranch := "main".toList }, newTag := ⟨1, 2, 0, [], []⟩ }

/-- The ref name the interactive variant actually creates for iRepo. -/
def refWrong : List Char := "ref/tags/v1.2.0".toList

/-- The ref name the claim prescribes for iRepo. -/
def refRight : List Char := "refs/tags/v1.2.0".toList

end Ex

/-! ### Lemmas: characters and digit strings -/

theorem charToNat_inj {c d : Char} (h : c.toNat = d.toNat) : c = d := by
  apply Char.eq_of_val_eq
  apply UInt32.eq_of_val_eq
  apply Fin.eq_of_val_eq
  exact h

theorem isDigit_range {c : Char} (h : c.isDigit = true) : 48 ≤ c.toNat ∧ c.toNat ≤ 57 := by
  simp [Char.isDigit] at h
  exact h

theorem digitVal_le {c : Char} (h : c.isDigit = true) : digitVal c ≤ 9 := by
  have := isDigit_range h
  unfold digitVal
  omega

theorem digitVal_inj {c d : Char} (hc : c.isDigit = true) (hd : d.isDigit = true)
    (h : digitVal c = digitVal d) : c = d := by
  have h1 := isDigit_range hc
  have h2 := isDigit_range hd
  apply charToNat_inj
  unfold digitVal at h
  omega

theorem digitVal_pos {c : Char} (hc : c.isDigit = true) (h : c ≠ '0') : 1 ≤ digitVal c := by
  have h1 := isDigit_range hc
  have h2 : c.toNat ≠ 48 := fun he => h (charToNat_inj (c := c) (d := '0') he)
  unfold digitVal
  omega

theorem digitsToNat_foldl (l : List Char) (a : Nat) :
    l.foldl (fun n c => n * 10 + digitVal c) a = a * 10 ^ l.length + digitsToNat l := by
  induction l generalizing a with
  | nil => simp [digitsToNat]
  | cons c t ih =>
    simp only [List.foldl_cons, List.length_cons, digitsToNat]
    rw [ih (a * 10 + digitVal c), ih (0 * 10 + digitVal c)]
    ring

theorem digitsToNat_cons (c : Char) (t : List Char) :
    digitsToNat (c :: t) = digitVal c * 10 ^ t.length + digitsToNat t := by
  show (c :: t).foldl (fun n c => n * 10 + digitVal c) 0 = _
  simp only [List.foldl_cons]
  rw [digitsToNat_foldl]
  ring

theorem digitsToNat_lt (l : List Char) (h : ∀ c ∈ l, c.isDigit = true) :
    digitsToNat l < 10 ^ l.length := by
  induction l with
  | nil => simp [digitsToNat]
  | cons c t ih =>
    rw [digitsToNat_cons]
    have h1 : digitVal c ≤ 9 := digitVal_le (h c (by simp))
    have h2 := ih fun x hx => h x (by simp [hx])
    have h3 : digitVal c * 10 ^ t.length ≤ 9 * 10 ^ t.length :=
      Nat.mul_le_mul_right _ h1
    simp only [List.length_cons, pow_succ]
    omega

theorem digits_inj_of_len (s : List Char) : ∀ (o : List Char), s.length = o.length →
    (∀ c ∈ s, c.isDigit = true) → (∀ c ∈ o, c.isDigit = true) →
    digitsToNat s = digitsToNat o → s = o := by
  induction s with
  | nil =>
    intro o hlen _ _ _
    cases o with
    | nil => rfl
    | cons b u => simp at hlen
  | cons a t ih =>
    intro o hlen hs ho hval
    cases o with
    | nil => simp at hlen
    | cons b u =>
      have hlen' : t.length = u.length := by simpa using hlen
      rw [digitsToNat_cons, digitsToNat_cons, hlen'] at hval
      have hbt : digitsToNat t < 10 ^ u.length := by
        rw [← hlen']; exact digitsToNat_lt t fun c hc => hs c (by simp [hc])
      have hbu : digitsToNat u < 10 ^ u.length :=
        digitsToNat_lt u fun c hc => ho c (by simp [hc])
      have hr : digitsToNat t = digitsToNat u := by
        have e1 : (digitVal a * 10 ^ u.length + digitsToNat t) % 10 ^ u.length
            = digitsToNat t % 10 ^ u.length := by
          rw [Nat.mul_comm (digitVal a)]; exact Nat.mul_add_mod _ _ _
        have e2 : (digitVal b * 10 ^ u.length + digitsToNat u) % 10 ^ u.length
            = digitsToNat u % 10 ^ u.length := by
          rw [Nat.mul_comm (digitVal b)]; exact Nat.mul_add_mod _ _ _
        rw [Nat.mod_eq_of_lt hbt] at e1
        rw [Nat.mod_eq_of_lt hbu] at e2
        rw [← e1, ← e2, hval]
      have hv : digitVal a = digitVal b := by
        have : digitVal a * 10 ^ u.length = digitVal b * 10 ^ u.length := by omega
        exact Nat.eq_of_mul_eq_mul_right (Nat.pos_pow_of_pos _ (by omega)) this
      have ha : a = b := digitVal_inj (hs a (by simp)) (ho b (by simp)) hv
      have ht : t = u := ih u hlen' (fun c hc => hs c (by simp [hc]))
        (fun c hc => ho c (by simp [hc])) hr
      rw [ha, ht]

theorem digitsToNat_lt_of_len (s o : List Char) (h : s.length < o.length)
    (hds : ∀ c ∈ s, c.isDigit = true) (hdo : ∀ c ∈ o, c.isDigit = true)
    (hzo : o.length ≤ 1 ∨ o.head? ≠ some '0') (hs : s ≠ []) :
    digitsToNat s < digitsToNat o := by
  cases o with
  | nil => simp at h
  | cons b u =>
    have hslen : 0 < s.length := List.length_pos.mpr hs
    have hulen : 1 ≤ u.length := by
      simp only [List.length_cons] at h
      omega
    have hb0 : b ≠ '0' := by
      rcases hzo with h1 | h1
      · simp only [List.length_cons] at h1; omega
      · simpa using h1
    have hbd : 1 ≤ digitVal b := digitVal_pos (hdo b (by simp)) hb0
    calc digitsToNat s < 10 ^ s.length := digitsToNat_lt s hds
      _ ≤ 10 ^ u.length := Nat.pow_le_pow_right (by omega)
          (by simp only [List.length_cons] at h; omega)
      _ ≤ digitVal b * 10 ^ u.length := Nat.le_mul_of_pos_left _ (by omega)
      _ ≤ digitsToNat (b :: u) := by rw [digitsToNat_cons]; omega

theorem digits_inj (s o : List Char) (hs : s ≠ []) (ho : o ≠ [])
    (hds : ∀ c ∈ s, c.isDigit = true) (hdo : ∀ c ∈ o, c.isDigit = true)
    (hzs : s.length ≤ 1 ∨ s.head? ≠ some '0') (hzo : o.length ≤ 1 ∨ o.head? ≠ some '0')
    (hval : digitsToNat s = digitsToNat o) : s = o := by
  rcases Nat.lt_trichotomy s.length o.length with h | h | h
  · exact absurd hval (Nat.ne_of_lt (digitsToNat_lt_of_len s o h hds hdo hzo hs))
  · exact digits_inj_of_len s o h hds hdo hval
  · exact absurd hval.symm (Nat.ne_of_lt (digitsToNat_lt_of_len o s h hdo hds hzs ho))

/-! ### Lemmas: decimal formatting -/

theorem decDigitChar_digit (k : Nat) : (decDigitChar k).isDigit = true := by
  unfold decDigitChar
  split <;> decide

theorem digitVal_decDigitChar {k : Nat} (h : k < 10) : digitVal (decDigitChar k) = k := by
  interval_cases k <;> decide

theorem natDigitsGo_eq (n : Nat) : ∀ (fuel : Nat) (acc : List Char), n ≤ fuel →
    natDigitsGo fuel n acc = natDigits n ++ acc := by
  induction n using Nat.strong_induction_on with
  | _ n ih =>
    intro fuel acc hle
    by_cases h : n < 10
    · have hsmall : ∀ (f : Nat) (ac : List Char), natDigitsGo f n ac = decDigitChar n :: ac := by
        intro f ac
        cases f with
        | zero => rfl
        | succ f => rw [natDigitsGo, if_pos h]
      rw [hsmall, natDigits, hsmall]
      rfl
    · have hlt : n / 10 < n := Nat.div_lt_self (by omega) (by omega)
      have hstep : ∀ (g : Nat) (ac : List Char), n ≤ g + 1 →
          natDigitsGo (g + 1) n ac = natDigits (n / 10) ++ (decDigitChar (n % 10) :: ac) := by
        intro g ac hg
        rw [natDigitsGo, if_neg h, ih _ hlt g _ (by omega)]
      obtain ⟨f, rfl⟩ : ∃ f, fuel = f + 1 := ⟨fuel - 1, by omega⟩
      obtain ⟨m, rfl⟩ : ∃ m, n = m + 1 := ⟨n - 1, by omega⟩
      have hrhs : natDigits (m + 1) =
          natDigits ((m + 1) / 10) ++ [decDigitChar ((m + 1) % 10)] := by
        rw [natDigits, hstep m [] (by omega)]
      rw [hstep f acc (by omega), hrhs, List.append_assoc]
      rfl

theorem natDigits_small {n : Nat} (h : n < 10) : natDigits n = [decDigitChar n] := by
  cases n with
  | zero => rfl
  | succ m => rw [natDigits, natDigitsGo, if_pos h]

theorem natDigits_big {n : Nat} (h : ¬n < 10) :
    natDigits n = natDigits (n / 10) ++ [decDigitChar (n % 10)] := by
  obtain ⟨m, rfl⟩ : ∃ m, n = m + 1 := ⟨n - 1, by omega⟩
  rw [natDigits, natDigitsGo, if_neg h, natDigitsGo_eq _ m _ (by omega)]

theorem digitsToNat_append_digit (l : List Char) (c : Char) :
    digitsToNat (l ++ [c]) = 10 * digitsToNat l + digitVal c := by
  show (l ++ [c]).foldl (fun n c => n * 10 + digitVal c) 0 = _
  rw [List.foldl_append]
  show digitsToNat l * 10 + digitVal c = _
  ring

theorem digitsToNat_natDigits (n : Nat) : digitsToNat (natDigits n) = n := by
  induction n using Nat.strong_induction_on with
  | _ n ih =>
    by_cases h : n < 10
    · rw [natDigits_small h]
      show digitsToNat ([] ++ [decDigitChar n]) = n
      rw [digitsToNat_append_digit, digitVal_decDigitChar h]
      simp [digitsToNat]
    · have hlt : n / 10 < n := Nat.div_lt_self (by omega) (by omega)
      rw [natDigits_big h, digitsToNat_append_digit, ih _ hlt,
        digitVal_decDigitChar (Nat.mod_lt _ (by omega))]
      omega

theorem natDigits_all_digits (n : Nat) : ∀ c ∈ natDigits n, c.isDigit = true := by
  induction n using Nat.strong_induction_on with
  | _ n ih =>
    by_cases h : n < 10
    · rw [natDigits_small h]
      intro c hc
      simp at hc
      rw [hc]
      exact decDigitChar_digit n
    · have hlt : n / 10 < n := Nat.div_lt_self (by omega) (by omega)
      rw [natDigits_big h]
      intro c hc
      rcases List.mem_append.mp hc with h1 | h1
      · exact ih _ hlt c h1
      · simp at h1
        rw [h1]
        exact decDigitChar_digit _

theorem natDigits_ne_nil (n : Nat) : natDigits n ≠ [] := by
  by_cases h : n < 10
  · rw [natDigits_small h]; simp
  · rw [natDigits_big h]; simp

/-! ### Lemmas: Go string comparison -/

theorem goStrCmp_self (s : List Char) : goStrCmp s s = 0 := by
  induction s with
  | nil => rfl
  | cons c t ih => simp [goStrCmp, ih]

theorem goStrCmp_antisym : ∀ (s t : List Char), goStrCmp t s = -goStrCmp s t := by
  intro s
  induction s with
  | nil =>
    intro t
    cases t with
    | nil => rfl
    | cons b u => norm_num [goStrCmp]
  | cons a s ih =>
    intro t
    cases t with
    | nil => norm_num [goStrCmp]
    | cons b u =>
      simp only [goStrCmp]
      rcases Nat.lt_trichotomy a.toNat b.toNat with h | h | h
      · rw [if_neg (by omega), if_pos h, if_pos h]
        try norm_num
      · rw [if_neg (by omega), if_neg (by omega), if_neg (by omega), if_neg (by omega)]
        exact ih u
      · rw [if_pos h, if_neg (by omega), if_pos h]
        try norm_num

theorem goStrCmp_eq_zero : ∀ (s t : List Char), goStrCmp s t = 0 → s = t := by
  intro s
  induction s with
  | nil =>
    intro t h
    cases t with
    | nil => rfl
    | cons b u => norm_num [goStrCmp] at h
  | cons a s ih =>
    intro t h
    cases t with
    | nil => norm_num [goStrCmp] at h
    | cons b u =>
      simp only [goStrCmp] at h
      rcases Nat.lt_trichotomy a.toNat b.toNat with h1 | h1 | h1
      · rw [if_pos h1] at h; norm_num at h
      · rw [if_neg (by omega), if_neg (by omega)] at h
        have hab : a = b := charToNat_inj h1
        rw [hab, ih u h]
      · rw [if_neg (by omega), if_pos h1] at h; norm_num at h

theorem goStrCmp_vals (s t : List Char) :
    goStrCmp s t = -1 ∨ goStrCmp s t = 0 ∨ goStrCmp s t = 1 := by
  induction s generalizing t with
  | nil => cases t <;> simp [goStrCmp]
  | cons a s ih =>
    cases t with
    | nil => simp [goStrCmp]
    | cons b u =>
      simp only [goStrCmp]
      split_ifs <;> simp [ih u]

theorem goStrCmp_le_trans : ∀ (a b c : List Char),
    goStrCmp a b ≤ 0 → goStrCmp b c ≤ 0 → goStrCmp a c ≤ 0 := by
  intro a
  induction a with
  | nil =>
    intro b c _ _
    cases c with
    | nil => norm_num [goStrCmp]
    | cons z zs => norm_num [goStrCmp]
  | cons x xs ih =>
    intro b c h1 h2
    cases b with
    | nil => norm_num [goStrCmp] at h1
    | cons y ys =>
      cases c with
      | nil => norm_num [goStrCmp] at h2
      | cons z zs =>
        simp only [goStrCmp] at h1 h2 ⊢
        rcases Nat.lt_trichotomy x.toNat y.toNat with hxy | hxy | hxy
        · rcases Nat.lt_trichotomy y.toNat z.toNat with hyz | hyz | hyz
          · rw [if_pos (by omega)]; norm_num
          · rw [if_pos (by omega)]; norm_num
          · rw [if_neg (by omega), if_pos hyz] at h2; omega
        · rw [if_neg (by omega), if_neg (by omega)] at h1
          rcases Nat.lt_trichotomy y.toNat z.toNat with hyz | hyz | hyz
          · rw [if_pos (by omega)]; norm_num
          · rw [if_neg (by omega), if_neg (by omega)] at h2 ⊢
            exact ih ys zs h1 h2
          · rw [if_neg (by omega), if_pos hyz] at h2; omega
        · rw [if_neg (by omega), if_pos hxy] at h1; omega

/-! ### Lemmas: pre-release keys -/

theorem keyCmp_self (k : PreKey) : keyCmp k k = 0 := by
  cases k with
  | emp => rfl
  | num n => simp [keyCmp]
  | str s => simp [keyCmp, goStrCmp_self]

theorem keyCmp_antisym (a b : PreKey) : keyCmp b a = -keyCmp a b := by
  cases a with
  | emp =>
    cases b with
    | emp => rfl
    | num n => norm_num [keyCmp]
    | str s => norm_num [keyCmp]
  | num m =>
    cases b with
    | emp => norm_num [keyCmp]
    | num n => simp only [keyCmp]; split_ifs <;> omega
    | str s => norm_num [keyCmp]
  | str s =>
    cases b with
    | emp => norm_num [keyCmp]
    | num n => norm_num [keyCmp]
    | str t => simp only [keyCmp]; exact goStrCmp_antisym s t

theorem keyCmp_eq_zero : ∀ {a b : PreKey}, keyCmp a b = 0 → a = b := by
  intro a b h
  cases a with
  | emp =>
    cases b with
    | emp => rfl
    | num n => norm_num [keyCmp] at h
    | str s => norm_num [keyCmp] at h
  | num m =>
    cases b with
    | emp => norm_num [keyCmp] at h
    | num n =>
      simp only [keyCmp] at h
      rcases Nat.lt_trichotomy m n with h1 | h1 | h1
      · rw [if_pos h1] at h; norm_num at h
      · rw [h1]
      · rw [if_neg (by omega), if_pos h1] at h; norm_num at h
    | str s => norm_num [keyCmp] at h
  | str s =>
    cases b with
    | emp => norm_num [keyCmp] at h
    | num n => norm_num [keyCmp] at h
    | str t =>
      simp only [keyCmp] at h
      rw [goStrCmp_eq_zero s t h]

theorem keyCmp_le_trans : ∀ {a b c : PreKey}, keyCmp a b ≤ 0 → keyCmp b c ≤ 0 → keyCmp a c ≤ 0 := by
  intro a b c h1 h2
  cases a <;> cases b <;> cases c <;> simp only [keyCmp] at h1 h2 ⊢ <;>
    first
      | omega
      | (split_ifs at h1 h2 ⊢ <;> omega)
      | (exact goStrCmp_le_trans _ _ _ h1 h2)

theorem keyCmp_lt_of_lt_of_le {a b c : PreKey} (h1 : keyCmp a b < 0) (h2 : keyCmp b c ≤ 0) :
    keyCmp a c < 0 := by
  by_contra hc
  push_neg at hc
  have hca : keyCmp c a ≤ 0 := by
    rw [keyCmp_antisym a c]
    omega
  have hba : keyCmp b a ≤ 0 := keyCmp_le_trans h2 hca
  rw [keyCmp_antisym a b] at hba
  omega

/-! ### Lemmas: key list comparison -/

theorem keyListCmp_self : ∀ (l : List PreKey), keyListCmp l l = 0 := by
  intro l
  induction l with
  | nil => simp [keyListCmp]
  | cons a as ih => simp [keyListCmp, keyCmp_self, ih]

theorem keyListCmp_nil_antisym : ∀ (bs : List PreKey), keyListCmp bs [] = -keyListCmp [] bs := by
  intro bs
  induction bs with
  | nil => norm_num [keyListCmp]
  | cons b bs ih =>
    simp only [keyListCmp, keyCmp_antisym PreKey.emp b]
    by_cases h : keyCmp PreKey.emp b = 0
    · rw [h]
      norm_num
      exact ih
    · rw [if_pos (by omega), if_pos h]

theorem keyListCmp_antisym : ∀ (a b : List PreKey), keyListCmp b a = -keyListCmp a b := by
  intro a
  induction a with
  | nil => intro b; exact keyListCmp_nil_antisym b
  | cons x xs ih =>
    intro b
    cases b with
    | nil => rw [keyListCmp_nil_antisym (x :: xs), neg_neg]
    | cons y ys =>
      simp only [keyListCmp, keyCmp_antisym x y]
      by_cases h : keyCmp x y = 0
      · rw [h]
        norm_num
        exact ih ys
      · rw [if_pos (by omega), if_pos h]

theorem keyListCmp_nil_le : ∀ (cs : List PreKey), keyListCmp [] cs ≤ 0 := by
  intro cs
  induction cs with
  | nil => norm_num [keyListCmp]
  | cons c cs ih =>
    by_cases h : keyCmp PreKey.emp c = 0
    · simpa [keyListCmp, h] using ih
    · rw [keyListCmp, if_pos h]
      cases c with
      | emp => exact absurd rfl h
      | num n => norm_num [keyCmp]
      | str s => norm_num [keyCmp]

theorem keyListCmp_left_emp : ∀ (as : List PreKey), keyListCmp as [] ≤ 0 → ∀ k ∈ as, k = .emp := by
  intro as
  induction as with
  | nil => intro _ k hk; simp at hk
  | cons a as ih =>
    intro h k hk
    simp only [keyListCmp] at h
    by_cases ha : keyCmp a PreKey.emp = 0
    · have ha' : a = PreKey.emp := keyCmp_eq_zero ha
      rw [if_neg (by omega)] at h
      rcases List.mem_cons.mp hk with h1 | h1
      · rw [h1, ha']
      · exact ih h k h1
    · rw [if_pos ha] at h
      exfalso
      cases a with
      | emp => exact ha rfl
      | num n => norm_num [keyCmp] at h
      | str s => norm_num [keyCmp] at h

theorem keyListCmp_le_of_emp : ∀ (as cs : List PreKey),
    (∀ k ∈ as, k = PreKey.emp) → keyListCmp as cs ≤ 0 := by
  intro as
  induction as with
  | nil => intro cs _; exact keyListCmp_nil_le cs
  | cons a as ih =>
    intro cs h
    have ha : a = PreKey.emp := h a (by simp)
    cases cs with
    | nil =>
      simp only [keyListCmp]
      rw [ha, if_neg (by norm_num [keyCmp])]
      exact ih [] fun k hk => h k (by simp [hk])
    | cons c cs2 =>
      simp only [keyListCmp]
      rw [ha]
      by_cases hc : keyCmp PreKey.emp c = 0
      · rw [if_neg (by omega)]
        exact ih cs2 fun k hk => h k (by simp [hk])
      · rw [if_pos hc]
        cases c with
        | emp => exact absurd rfl hc
        | num n => norm_num [keyCmp]
        | str s => norm_num [keyCmp]

theorem keyListCmp_right_emp : ∀ (as bs : List PreKey), (∀ k ∈ bs, k = PreKey.emp) →
    keyListCmp as bs ≤ 0 → keyListCmp as [] ≤ 0 := by
  intro as
  induction as with
  | nil => intro bs _ _; exact keyListCmp_nil_le []
  | cons a as ih =>
    intro bs hb h
    cases bs with
    | nil => exact h
    | cons b bs2 =>
      have hbe : b = PreKey.emp := hb b (by simp)
      rw [hbe] at h
      simp only [keyListCmp] at h ⊢
      by_cases ha : keyCmp a PreKey.emp = 0
      · rw [if_neg (by omega)] at h ⊢
        exact ih bs2 (fun k hk => hb k (by simp [hk])) h
      · rw [if_pos ha] at h ⊢
        exact h

theorem keyListCmp_le_trans : ∀ (as bs cs : List PreKey),
    keyListCmp as bs ≤ 0 → keyListCmp bs cs ≤ 0 → keyListCmp as cs ≤ 0 := by
  intro as
  induction as with
  | nil => intro bs cs _ _; exact keyListCmp_nil_le cs
  | cons a as ih =>
    intro bs cs h1 h2
    cases bs with
    | nil => exact keyListCmp_le_of_emp _ _ (keyListCmp_left_emp _ h1)
    | cons b bs2 =>
      cases cs with
      | nil => exact keyListCmp_right_emp _ _ (keyListCmp_left_emp _ h2) h1
      | cons c cs2 =>
        simp only [keyListCmp] at h1 h2 ⊢
        by_cases hab : keyCmp a b = 0
        · have he : a = b := keyCmp_eq_zero hab
          rw [if_neg (by omega)] at h1
          by_cases hbc : keyCmp b c = 0
          · have hac : keyCmp a c = 0 := by rw [he, keyCmp_eq_zero hbc]; exact keyCmp_self c
            rw [if_neg (by omega)] at h2
            rw [if_neg (by omega)]
            exact ih bs2 cs2 h1 h2
          · rw [if_pos hbc] at h2
            have hac : keyCmp a c = keyCmp b c := by rw [he]
            rw [if_pos (by omega), hac]
            exact h2
        · rw [if_pos hab] at h1
          by_cases hbc : keyCmp b c = 0
          · have he2 : b = c := keyCmp_eq_zero hbc
            have hac : keyCmp a c = keyCmp a b := by rw [he2]
            rw [if_pos (by omega), hac]
            exact h1
          · rw [if_pos hbc] at h2
            have hac : keyCmp a c < 0 := keyCmp_lt_of_lt_of_le (by omega) h2
            rw [if_pos (by omega)]
            omega

/-! ### Lemmas: comparePrePart agrees with keys on well-formed segments -/

theorem parseUint64_some {s : List Char} {n : Nat} (h : parseUint64 s = some n) :
    s ≠ [] ∧ s.all Char.isDigit = true ∧ digitsToNat s < 2 ^ 64 ∧ n = digitsToNat s := by
  unfold parseUint64 at h
  split_ifs at h with hc
  exact ⟨hc.1, hc.2.1, hc.2.2, (Option.some_inj.mp h).symm⟩

theorem toKey_nil : toKey [] = PreKey.emp := by simp [toKey]

theorem toKey_of_some {s : List Char} {n : Nat} (hne : s ≠ []) (h : parseUint64 s = some n) :
    toKey s = PreKey.num n := by
  unfold toKey
  rw [if_neg hne, h]

theorem toKey_of_none {s : List Char} (hne : s ≠ []) (h : parseUint64 s = none) :
    toKey s = PreKey.str s := by
  unfold toKey
  rw [if_neg hne, h]

theorem toKey_ne_emp {s : List Char} (hne : s ≠ []) : toKey s ≠ PreKey.emp := by
  unfold toKey
  rw [if_neg hne]
  cases h : parseUint64 s <;> simp

theorem validSeg_facts {s : List Char} (h : validSeg s = true) :
    s ≠ [] ∧ (s.all Char.isDigit = true → s.length ≤ 1 ∨ s.head? ≠ some '0') := by
  simp only [validSeg, Bool.and_eq_true, Bool.or_eq_true, Bool.not_eq_true',
    decide_eq_true_eq, beq_iff_eq] at h
  obtain ⟨⟨h1, _⟩, h3⟩ := h
  constructor
  · intro he
    rw [he] at h1
    simp at h1
  · intro hd
    rcases h3 with (h3 | h3) | h3
    · rw [hd] at h3
      simp at h3
    · exact Or.inl h3
    · right
      intro hh
      rw [hh] at h3
      simp at h3

theorem comparePrePart_self (s : List Char) : comparePrePart s s = 0 := by
  simp [comparePrePart]

theorem comparePrePart_eq_keyCmp (s o : List Char)
    (hs : s = [] ∨ validSeg s = true) (ho : o = [] ∨ validSeg o = true) :
    comparePrePart s o = keyCmp (toKey s) (toKey o) := by
  by_cases hso : s = o
  · rw [hso, comparePrePart_self, keyCmp_self]
  · by_cases hs0 : s = []
    · have ho0 : o ≠ [] := fun h => hso (by rw [hs0, h])
      rw [hs0, toKey_nil]
      have h1 : comparePrePart [] o = -1 := by
        unfold comparePrePart
        rw [if_neg (fun h => ho0 h.symm), if_pos rfl, if_pos ho0]
      rw [h1]
      unfold toKey
      rw [if_neg ho0]
      cases hp : parseUint64 o <;> simp [keyCmp]
    · by_cases ho0 : o = []
      · rw [ho0, toKey_nil]
        have h1 : comparePrePart s [] = 1 := by
          unfold comparePrePart
          rw [if_neg hs0, if_neg hs0, if_pos rfl, if_pos hs0]
        rw [h1]
        unfold toKey
        rw [if_neg hs0]
        cases hp : parseUint64 s <;> simp [keyCmp]
      · have hstep : comparePrePart s o =
            match parseUint64 o, parseUint64 s with
            | none, none => if goStrCmp s o = 1 then 1 else -1
            | none, some _ => -1
            | some _, none => 1
            | some oi, some si => if si > oi then 1 else -1 := by
          unfold comparePrePart
          rw [if_neg hso, if_neg hs0, if_neg ho0]
        rcases hps : parseUint64 s with _ | si <;> rcases hpo : parseUint64 o with _ | oi
        · rw [hstep, hps, hpo, toKey_of_none hs0 hps, toKey_of_none ho0 hpo]
          simp only [keyCmp]
          have hne : goStrCmp s o ≠ 0 := fun hz => hso (goStrCmp_eq_zero s o hz)
          rcases goStrCmp_vals s o with hv | hv | hv
          · rw [hv, if_neg (by norm_num)]
          · exact absurd hv hne
          · rw [hv, if_pos rfl]
        · rw [hstep, hps, hpo, toKey_of_none hs0 hps, toKey_of_some ho0 hpo]
          simp [keyCmp]
        · rw [hstep, hps, hpo, toKey_of_some hs0 hps, toKey_of_none ho0 hpo]
          simp [keyCmp]
        · rw [hstep, hps, hpo, toKey_of_some hs0 hps, toKey_of_some ho0 hpo]
          simp only [keyCmp]
          obtain ⟨_, hsd, hsb, hsv⟩ := parseUint64_some hps
          obtain ⟨_, hod, hob, hov⟩ := parseUint64_some hpo
          rcases Nat.lt_trichotomy si oi with hv | hv | hv
          · rw [if_neg (by omega), if_pos hv]
          · exfalso
            apply hso
            have hvs := validSeg_facts (hs.resolve_left hs0)
            have hvo := validSeg_facts (ho.resolve_left ho0)
            exact digits_inj s o hs0 ho0 (List.all_eq_true.mp hsd) (List.all_eq_true.mp hod)
              (hvs.2 hsd) (hvo.2 hod) (by omega)
          · rw [if_pos hv, if_neg (by omega), if_pos hv]

/-! ### Lemmas: pre-release comparison -/

theorem comparePreLists_self : ∀ (l : List (List Char)), comparePreLists l l = 0 := by
  intro l
  induction l with
  | nil => simp [comparePreLists]
  | cons s ss ih => simp [comparePreLists, comparePrePart_self, ih]

theorem comparePreLists_eq : ∀ (ss os : List (List Char)),
    (∀ s ∈ ss, s = [] ∨ validSeg s = true) → (∀ o ∈ os, o = [] ∨ validSeg o = true) →
    comparePreLists ss os = keyListCmp (ss.map toKey) (os.map toKey) := by
  intro ss
  induction ss with
  | nil =>
    intro os
    induction os with
    | nil => intro _ _; simp [comparePreLists, keyListCmp]
    | cons o os2 iho =>
      intro hs ho
      simp only [comparePreLists, keyListCmp, List.map_cons, List.map_nil]
      have hcor : comparePrePart [] o = keyCmp PreKey.emp (toKey o) := by
        have := comparePrePart_eq_keyCmp [] o (Or.inl rfl) (ho o (by simp))
        rwa [toKey_nil] at this
      rw [hcor]
      have hrec := iho hs fun x hx => ho x (by simp [hx])
      simp only [List.map_nil] at hrec
      rw [hrec]
  | cons s ss2 ih =>
    intro os hs ho
    cases os with
    | nil =>
      simp only [comparePreLists, keyListCmp, List.map_cons, List.map_nil]
      have hcor : comparePrePart s [] = keyCmp (toKey s) PreKey.emp := by
        have := comparePrePart_eq_keyCmp s [] (hs s (by simp)) (Or.inl rfl)
        rwa [toKey_nil] at this
      rw [hcor]
      have hrec := ih [] (fun x hx => hs x (by simp [hx])) (by simp)
      simp only [List.map_nil] at hrec
      rw [hrec]
    | cons o os2 =>
      simp only [comparePreLists, keyListCmp, List.map_cons]
      rw [comparePrePart_eq_keyCmp s o (hs s (by simp)) (ho o (by simp)),
        ih os2 (fun x hx => hs x (by simp [hx])) (fun x hx => ho x (by simp [hx]))]

theorem comparePrerelease_antisym {p q : List Char}
    (hp : (splitOnChar '.' p).all validSeg = true)
    (hq : (splitOnChar '.' q).all validSeg = true) :
    comparePrerelease q p = -comparePrerelease p q := by
  unfold comparePrerelease
  rw [comparePreLists_eq _ _ (fun x hx => Or.inr (List.all_eq_true.mp hq x hx))
        (fun x hx => Or.inr (List.all_eq_true.mp hp x hx)),
     comparePreLists_eq _ _ (fun x hx => Or.inr (List.all_eq_true.mp hp x hx))
        (fun x hx => Or.inr (List.all_eq_true.mp hq x hx)),
     keyListCmp_antisym]

theorem comparePrerelease_le_trans {p q r : List Char}
    (hp : (splitOnChar '.' p).all validSeg = true)
    (hq : (splitOnChar '.' q).all validSeg = true)
    (hr : (splitOnChar '.' r).all validSeg = true)
    (h1 : comparePrerelease p q ≤ 0) (h2 : comparePrerelease q r ≤ 0) :
    comparePrerelease p r ≤ 0 := by
  unfold comparePrerelease at h1 h2 ⊢
  rw [comparePreLists_eq _ _ (fun x hx => Or.inr (List.all_eq_true.mp hp x hx))
        (fun x hx => Or.inr (List.all_eq_true.mp hq x hx))] at h1
  rw [comparePreLists_eq _ _ (fun x hx => Or.inr (List.all_eq_true.mp hq x hx))
        (fun x hx => Or.inr (List.all_eq_true.mp hr x hx))] at h2
  rw [comparePreLists_eq _ _ (fun x hx => Or.inr (List.all_eq_true.mp hp x hx))
        (fun x hx => Or.inr (List.all_eq_true.mp hr x hx))]
  exact keyListCmp_le_trans _ _ _ h1 h2

/-! ### Lemmas: the pre-release block and Compare -/

theorem validPre_of_validVer {v : SemVer} (h : ValidVer v = true) : ValidPre v.pre := by
  unfold ValidVer at h
  unfold ValidPre
  cases hb : v.pre.isEmpty with
  | true => exact Or.inl (by simpa using hb)
  | false =>
    rw [hb] at h
    simp only [Bool.false_or] at h
    exact Or.inr h

theorem validPre_all {p : List Char} (h : ValidPre p) (hne : p ≠ []) :
    (splitOnChar '.' p).all validSeg = true := h.resolve_left hne

theorem preBlock_self (p : List Char) : preBlockCmp p p = 0 := by
  by_cases h : p = []
  · simp [preBlockCmp, h]
  · simp [preBlockCmp, h, comparePrerelease, comparePreLists_self]

theorem preBlock_antisym {p q : List Char} (hp : ValidPre p) (hq : ValidPre q) :
    preBlockCmp q p = -preBlockCmp p q := by
  unfold preBlockCmp
  by_cases h1 : p = [] <;> by_cases h2 : q = [] <;> simp [h1, h2]
  exact comparePrerelease_antisym (validPre_all hp h1) (validPre_all hq h2)

theorem preBlock_le_trans {p q r : List Char} (hp : ValidPre p) (hq : ValidPre q)
    (hr : ValidPre r) (h1 : preBlockCmp p q ≤ 0) (h2 : preBlockCmp q r ≤ 0) :
    preBlockCmp p r ≤ 0 := by
  unfold preBlockCmp at h1 h2 ⊢
  by_cases e1 : p = [] <;> by_cases e2 : q = [] <;> by_cases e3 : r = [] <;>
    simp_all
  exact comparePrerelease_le_trans (validPre_all hp e1) (validPre_all hq e2)
    (validPre_all hr e3) h1 h2

theorem cs_of_lt {a b : Nat} (h : a < b) : compareSegment a b = -1 := by
  unfold compareSegment
  rw [if_pos h]

theorem cs_of_gt {a b : Nat} (h : b < a) : compareSegment a b = 1 := by
  unfold compareSegment
  rw [if_neg (by omega), if_pos h]

theorem cs_of_eq {a b : Nat} (h : a = b) : compareSegment a b = 0 := by
  unfold compareSegment
  rw [if_neg (by omega), if_neg (by omega)]

theorem compare_def (v o : SemVer) : v.compare o =
    if compareSegment v.major o.major ≠ 0 then compareSegment v.major o.major
    else if compareSegment v.minor o.minor ≠ 0 then compareSegment v.minor o.minor
    else if compareSegment v.patch o.patch ≠ 0 then compareSegment v.patch o.patch
    else preBlockCmp v.pre o.pre := rfl

theorem compare_self (v : SemVer) : v.compare v = 0 := by
  rw [compare_def]
  simp [cs_of_eq rfl, preBlock_self]

theorem compare_antisym {v o : SemVer} (hv : ValidVer v = true) (ho : ValidVer o = true) :
    o.compare v = -(v.compare o) := by
  rw [compare_def, compare_def]
  rcases Nat.lt_trichotomy v.major o.major with h1 | h1 | h1
  · rw [cs_of_gt h1, cs_of_lt h1]
    norm_num
  · rw [cs_of_eq h1.symm, cs_of_eq h1]
    norm_num
    rcases Nat.lt_trichotomy v.minor o.minor with h2 | h2 | h2
    · rw [cs_of_gt h2, cs_of_lt h2]
      norm_num
    · rw [cs_of_eq h2.symm, cs_of_eq h2]
      norm_num
      rcases Nat.lt_trichotomy v.patch o.patch with h3 | h3 | h3
      · rw [cs_of_gt h3, cs_of_lt h3]
        norm_num
      · rw [cs_of_eq h3.symm, cs_of_eq h3]
        norm_num
        exact preBlock_antisym (validPre_of_validVer hv) (validPre_of_validVer ho)
      · rw [cs_of_lt h3, cs_of_gt h3]
        norm_num
    · rw [cs_of_lt h2, cs_of_gt h2]
      norm_num
  · rw [cs_of_lt h1, cs_of_gt h1]
    norm_num

theorem compare_le_elim (v o : SemVer) (h : v.compare o ≤ 0) :
    v.major < o.major ∨ (v.major = o.major ∧ (v.minor < o.minor ∨ (v.minor = o.minor ∧
      (v.patch < o.patch ∨ (v.patch = o.patch ∧ preBlockCmp v.pre o.pre ≤ 0))))) := by
  rw [compare_def] at h
  rcases Nat.lt_trichotomy v.major o.major with h1 | h1 | h1
  · exact Or.inl h1
  · rw [cs_of_eq h1] at h
    norm_num at h
    refine Or.inr ⟨h1, ?_⟩
    rcases Nat.lt_trichotomy v.minor o.minor with h2 | h2 | h2
    · exact Or.inl h2
    · rw [cs_of_eq h2] at h
      norm_num at h
      refine Or.inr ⟨h2, ?_⟩
      rcases Nat.lt_trichotomy v.patch o.patch with h3 | h3 | h3
      · exact Or.inl h3
      · rw [cs_of_eq h3] at h
        norm_num at h
        exact Or.inr ⟨h3, h⟩
      · rw [cs_of_gt h3] at h
        norm_num at h
    · rw [cs_of_gt h2] at h
      norm_num at h
  · rw [cs_of_gt h1] at h
    norm_num at h

theorem compare_le_intro (v o : SemVer)
    (h : v.major < o.major ∨ (v.major = o.major ∧ (v.minor < o.minor ∨ (v.minor = o.minor ∧
      (v.patch < o.patch ∨ (v.patch = o.patch ∧ preBlockCmp v.pre o.pre ≤ 0)))))) :
    v.compare o ≤ 0 := by
  rw [compare_def]
  rcases h with h1 | ⟨h1, h⟩
  · rw [cs_of_lt h1]
    norm_num
  · rw [cs_of_eq h1]
    norm_num
    rcases h with h2 | ⟨h2, h⟩
    · rw [cs_of_lt h2]
      norm_num
    · rw [cs_of_eq h2]
      norm_num
      rcases h with h3 | ⟨h3, h⟩
      · rw [cs_of_lt h3]
        norm_num
      · rw [cs_of_eq h3]
        norm_num
        exact h

theorem compare_le_trans {a b c : SemVer} (ha : ValidVer a = true) (hb : ValidVer b = true)
    (hc : ValidVer c = true) (h1 : a.compare b ≤ 0) (h2 : b.compare c ≤ 0) :
    a.compare c ≤ 0 := by
  have e1 := compare_le_elim a b h1
  have e2 := compare_le_elim b c h2
  apply compare_le_intro
  rcases e1 with e1 | ⟨e1M, e1⟩
  · left
    rcases e2 with e2 | ⟨e2M, _⟩ <;> omega
  · rcases e2 with e2 | ⟨e2M, e2⟩
    · left
      omega
    · right
      refine ⟨by omega, ?_⟩
      rcases e1 with e1 | ⟨e1m, e1⟩
      · left
        rcases e2 with e2 | ⟨e2m, _⟩ <;> omega
      · rcases e2 with e2 | ⟨e2m, e2⟩
        · left
          omega
        · right
          refine ⟨by omega, ?_⟩
          rcases e1 with e1 | ⟨e1p, e1⟩
          · left
            rcases e2 with e2 | ⟨e2p, _⟩ <;> omega
          · rcases e2 with e2 | ⟨e2p, e2⟩
            · left
              omega
            · right
              refine ⟨by omega, ?_⟩
              exact preBlock_le_trans (validPre_of_validVer ha) (validPre_of_validVer hb)
                (validPre_of_validVer hc) e1 e2

/-! ### Lemmas: the parser produces well-formed versions -/

theorem parseVerTail_props : ∀ {r pre meta : List Char}, parseVerTail r = some (pre, meta) →
    (pre = [] ∨ regexIdents pre = true) ∧ (meta = [] ∨ regexIdents meta = true) := by
  intro r pre meta h
  unfold parseVerTail at h
  split at h
  · obtain ⟨h1, h2⟩ := Prod.mk.injEq .. ▸ Option.some_inj.mp h
    exact ⟨Or.inl h1.symm, Or.inl h2.symm⟩
  · rename_i t
    dsimp only at h
    split_ifs at h with hr
    · split at h
      · obtain ⟨h1, h2⟩ := Prod.mk.injEq .. ▸ Option.some_inj.mp h
        rw [← h1, ← h2]
        exact ⟨Or.inr hr, Or.inl rfl⟩
      · rename_i m _
        split_ifs at h with hm
        obtain ⟨h1, h2⟩ := Prod.mk.injEq .. ▸ Option.some_inj.mp h
        rw [← h1, ← h2]
        exact ⟨Or.inr hr, Or.inr hm⟩
      · exact absurd h (by simp)
  · rename_i m
    split_ifs at h with hm
    obtain ⟨h1, h2⟩ := Prod.mk.injEq .. ▸ Option.some_inj.mp h
    rw [← h1, ← h2]
    exact ⟨Or.inl rfl, Or.inr hm⟩
  · exact absurd h (by simp)

theorem NewVersion_props : ∀ {input : List Char} {v : SemVer}, NewVersion input = some v →
    v.major < 2 ^ 64 ∧ v.minor < 2 ^ 64 ∧ v.patch < 2 ^ 64 ∧
    (v.pre = [] ∨ (regexIdents v.pre = true ∧ validatePrerelease v.pre = true)) ∧
    (v.metadata = [] ∨ regexIdents v.metadata = true) := by
  intro input v h
  unfold NewVersion at h
  dsimp only at h
  split_ifs at h with hmj
  split at h
  · exact absurd h (by simp)
  · rename_i p1 mn r2 _
    split at h
    · exact absurd h (by simp)
    · rename_i p2 pt r3 _
      split at h
      · exact absurd h (by simp)
      · rename_i p3 pre meta htail
        split_ifs at h with hc
        obtain ⟨hb1, hb2, hb3, hpre, hmeta⟩ := hc
        obtain ⟨hrp, hrm⟩ := parseVerTail_props htail
        rw [← Option.some_inj.mp h]
        refine ⟨hb1, hb2, hb3, ?_, ?_⟩
        · rcases hrp with h1 | h1
          · exact Or.inl h1
          · rcases hpre with h2 | h2
            · exact Or.inl h2
            · exact Or.inr ⟨h1, h2⟩
        · exact hrm

theorem validSeg_of {p : List Char} (hr : regexIdents p = true)
    (hv : validatePrerelease p = true) : (splitOnChar '.' p).all validSeg = true := by
  rw [List.all_eq_true]
  intro seg hseg
  have h1 := List.all_eq_true.mp hr seg hseg
  have h2 := List.all_eq_true.mp hv seg hseg
  simp only [Bool.and_eq_true] at h1
  obtain ⟨h1a, h1b⟩ := h1
  unfold validSeg
  rw [Bool.and_eq_true, Bool.and_eq_true]
  refine ⟨⟨h1a, h1b⟩, ?_⟩
  by_cases hd : seg.all Char.isDigit = true
  · have hcd : containsOnly seg Char.isDigit = true := hd
    rw [if_pos hcd] at h2
    simp only [Bool.not_eq_true', Bool.and_eq_false_iff, decide_eq_false_iff_not,
      not_lt] at h2
    rw [hd]
    simp only [Bool.not_true, Bool.false_or, Bool.or_eq_true, decide_eq_true_eq]
    rcases h2 with h2 | h2
    · exact Or.inl h2
    · right
      rw [h2]
      rfl
  · rw [Bool.not_eq_true] at hd
    rw [hd]
    simp

theorem NewVersion_valid {input : List Char} {v : SemVer} (h : NewVersion input = some v) :
    ValidVer v = true := by
  obtain ⟨_, _, _, hpre, _⟩ := NewVersion_props h
  unfold ValidVer
  rcases hpre with h1 | ⟨h1, h2⟩
  · rw [h1]
    rfl
  · rw [validSeg_of h1 h2]
    simp

/-! ### Lemmas: sorting and the latest tag -/

theorem getLast?_mem : ∀ {l : List SemVer} {a : SemVer}, l.getLast? = some a → a ∈ l := by
  intro l
  induction l with
  | nil => intro a h; simp at h
  | cons x xs ih =>
    intro a h
    cases xs with
    | nil =>
      simp at h
      simp [h]
    | cons y ys =>
      rw [List.getLast?_cons_cons] at h
      exact List.mem_cons_of_mem x (ih h)

theorem getLast?_cons_ne {l : List SemVer} (y : SemVer) (h : l ≠ []) :
    (y :: l).getLast? = l.getLast? := by
  cases l with
  | nil => exact absurd rfl h
  | cons a as => rw [List.getLast?_cons_cons]

theorem insertV_ne_nil (x : SemVer) (l : List SemVer) : insertV x l ≠ [] := by
  cases l with
  | nil => simp [insertV]
  | cons y ys =>
    unfold insertV
    split_ifs <;> simp

theorem mem_insertV {z x : SemVer} : ∀ {l : List SemVer}, z ∈ insertV x l ↔ z = x ∨ z ∈ l := by
  intro l
  induction l with
  | nil => simp [insertV]
  | cons y ys ih =>
    unfold insertV
    split_ifs with h
    · simp [List.mem_cons]
    · rw [List.mem_cons, ih]
      simp [List.mem_cons]
      tauto

theorem insertV_max (x : SemVer) : ∀ (s : List SemVer),
    ValidVer x = true → (∀ v ∈ s, ValidVer v = true) →
    (∀ m, s.getLast? = some m → ∀ v ∈ s, v.compare m ≤ 0) →
    ∃ m2, (insertV x s).getLast? = some m2 ∧ m2 ∈ x :: s ∧ ∀ v ∈ x :: s, v.compare m2 ≤ 0 := by
  intro s
  induction s with
  | nil =>
    intro hvx _ _
    refine ⟨x, by simp [insertV], by simp, ?_⟩
    intro v hv
    simp at hv
    rw [hv, compare_self]
  | cons y ys ih =>
    intro hvx hvs hmax
    unfold insertV
    split_ifs with hless
    · have hsome : (y :: ys).getLast?.isSome = true := by
        rw [List.getLast?_isSome]
        simp
      obtain ⟨m, hm⟩ := Option.isSome_iff_exists.mp hsome
      have hmem : m ∈ y :: ys := getLast?_mem hm
      refine ⟨m, ?_, List.mem_cons_of_mem x hmem, ?_⟩
      · rw [List.getLast?_cons_cons]
        exact hm
      · intro v hv
        rcases List.mem_cons.mp hv with hv1 | hv1
        · have hy : SemVer.compare y m ≤ 0 := hmax m hm y (by simp)
          have hxy : SemVer.compare x y ≤ 0 := le_of_lt hless
          rw [hv1]
          exact compare_le_trans hvx (hvs y (by simp)) (hvs m hmem) hxy hy
        · exact hmax m hm v hv1
    · have hmaxys : ∀ m', ys.getLast? = some m' → ∀ v ∈ ys, v.compare m' ≤ 0 := by
        intro m' hm' v hv
        cases ys with
        | nil => simp at hm'
        | cons z zs =>
          refine hmax m' ?_ v (List.mem_cons_of_mem y hv)
          rw [List.getLast?_cons_cons]
          exact hm'
      obtain ⟨m2, h1, h2, h3⟩ := ih hvx (fun v hv => hvs v (List.mem_cons_of_mem y hv)) hmaxys
      refine ⟨m2, ?_, ?_, ?_⟩
      · rw [getLast?_cons_ne y (insertV_ne_nil x ys)]
        exact h1
      · rcases List.mem_cons.mp h2 with h | h
        · simp [h]
        · simp [List.mem_cons_of_mem, h]
      · intro v hv
        have hym2 : SemVer.compare y m2 ≤ 0 := by
          rcases List.mem_cons.mp h2 with hh | hh
          · have hxy : 0 ≤ SemVer.compare x y := by omega
            have := compare_antisym (v := x) (o := y) hvx (hvs y (by simp))
            rw [hh]
            omega
          · have hys : ys ≠ [] := by
              intro he
              rw [he] at hh
              simp at hh
            have hsome : ys.getLast?.isSome = true := by
              rw [List.getLast?_isSome]
              exact hys
            obtain ⟨m', hm'⟩ := Option.isSome_iff_exists.mp hsome
            have hmem' : m' ∈ ys := getLast?_mem hm'
            have hy : SemVer.compare y m' ≤ 0 := by
              refine hmax m' ?_ y (by simp)
              rw [getLast?_cons_ne y hys]
              exact hm'
            have hm'm2 : SemVer.compare m' m2 ≤ 0 := h3 m' (List.mem_cons_of_mem x hmem')
            have hvm2 : ValidVer m2 = true := by
              rcases List.mem_cons.mp h2 with hh2 | hh2
              · rw [hh2]; exact hvx
              · exact hvs m2 (List.mem_cons_of_mem y hh2)
            exact compare_le_trans (hvs y (by simp)) (hvs m' (List.mem_cons_of_mem y hmem'))
              hvm2 hy hm'm2
        rcases List.mem_cons.mp hv with hv1 | hv1
        · exact h3 v (by simp [hv1])
        · rcases List.mem_cons.mp hv1 with hv2 | hv2
          · rw [hv2]
            exact hym2
          · exact h3 v (List.mem_cons_of_mem x hv2)

theorem mem_sortVersions : ∀ {l : List SemVer} {z : SemVer}, z ∈ sortVersions l ↔ z ∈ l := by
  intro l
  induction l with
  | nil => simp [sortVersions]
  | cons x xs ih =>
    intro z
    unfold sortVersions
    rw [mem_insertV, List.mem_cons, ih]

theorem sortVersions_max : ∀ (l : List SemVer), (∀ v ∈ l, ValidVer v = true) → l ≠ [] →
    ∃ m, (sortVersions l).getLast? = some m ∧ m ∈ l ∧ ∀ v ∈ l, v.compare m ≤ 0 := by
  intro l
  induction l with
  | nil => intro _ h; exact absurd rfl h
  | cons x xs ih =>
    intro hv _
    have hvx : ValidVer x = true := hv x (by simp)
    have hvs : ∀ v ∈ sortVersions xs, ValidVer v = true := fun v hm =>
      hv v (List.mem_cons_of_mem x (mem_sortVersions.mp hm))
    have hmax : ∀ m, (sortVersions xs).getLast? = some m →
        ∀ v ∈ sortVersions xs, v.compare m ≤ 0 := by
      intro m hm v hmem
      by_cases hxs : xs = []
      · rw [hxs] at hm
        simp [sortVersions] at hm
      · obtain ⟨m0, h1, _, h3⟩ := ih (fun w hw => hv w (List.mem_cons_of_mem x hw)) hxs
        have hm0 : m0 = m := by
          rw [hm] at h1
          exact Option.some_inj.mp h1.symm
        rw [← hm0]
        exact h3 v (mem_sortVersions.mp hmem)
    obtain ⟨m2, h1, h2, h3⟩ := insertV_max x (sortVersions xs) hvx hvs hmax
    refine ⟨m2, ?_, ?_, ?_⟩
    · show (sortVersions (x :: xs)).getLast? = some m2
      unfold sortVersions
      exact h1
    · rcases List.mem_cons.mp h2 with h | h
      · simp [h]
      · exact List.mem_cons_of_mem x (mem_sortVersions.mp h)
    · intro v hvv
      rcases List.mem_cons.mp hvv with h | h
      · exact h3 v (by simp [h])
      · exact h3 v (List.mem_cons_of_mem x (mem_sortVersions.mpr h))

/-! ### Claim theorems -/

/-- Claim C1: for every repository tag set, the version selector returns the
maximum parsed version under semantic-version precedence (no parsed version
compares greater, and the result is one of the parsed versions); in
particular for the set v1.2.0, v1.10.0, v1.9.0 it returns 1.10.0 (numeric
minor comparison, not lexicographic). -/
theorem fetchLatestTag_max :
    (∀ (refs : List (List Char)),
      refs.filterMap (fun r => NewVersion (trimPre refsTagsStr r)) ≠ [] →
      ∃ m, fetchLatestTag refs = some m ∧
        m ∈ refs.filterMap (fun r => NewVersion (trimPre refsTagsStr r)) ∧
        ∀ v ∈ refs.filterMap (fun r => NewVersion (trimPre refsTagsStr r)), v.compare m ≤ 0) ∧
    fetchLatestTag Ex.tagsC1 = some ⟨1, 10, 0, [], []⟩ := by
  constructor
  · intro refs hne
    unfold fetchLatestTag
    dsimp only
    rw [if_neg (by simpa using hne)]
    have hval : ∀ v ∈ refs.filterMap (fun r => NewVersion (trimPre refsTagsStr r)),
        ValidVer v = true := by
      intro v hv
      obtain ⟨r, _, hr⟩ := List.mem_filterMap.mp hv
      exact NewVersion_valid hr
    obtain ⟨m, h1, h2, h3⟩ := sortVersions_max _ hval hne
    exact ⟨m, h1, h2, h3⟩
  · decide

/-- Witness for C1 at the concrete tag set of the claim. -/
theorem fetchLatestTag_max_witness :
    ∃ m, fetchLatestTag Ex.tagsC1 = some m ∧
      m ∈ Ex.tagsC1.filterMap (fun r => NewVersion (trimPre refsTagsStr r)) ∧
      ∀ v ∈ Ex.tagsC1.filterMap (fun r => NewVersion (trimPre refsTagsStr r)), v.compare m ≤ 0 :=
  fetchLatestTag_max.1 Ex.tagsC1 (by decide)

/-- Counterexample to claim C2 as stated: 1.2.3-rc1 parses, but bumping it
with kind patch yields 1.2.3 — the pre-release is cleared while the patch
component stays 3 instead of becoming 3 + 1 = 4. -/
theorem bumpPatch_pre_counterexample :
    NewVersion Ex.strRc1 = some Ex.verPre ∧
    bumpVersion (some Ex.verPre) Ex.patchS = some ⟨1, 2, 3, [], []⟩ ∧
    bumpVersion (some Ex.verPre) Ex.patchS ≠ some ⟨1, 2, Ex.verPre.patch + 1, [], []⟩ :=
  ⟨by decide, by decide, by decide⟩

/-- Claim C2 (amended): bumping with kind patch clears pre-release and build
metadata and, when the version has no pre-release identifiers, increments the
patch component modulo 2^64 keeping major and minor; when the version has
pre-release identifiers the numeric components are all kept unchanged.  In
particular bump(1.2.3, patch) = 1.2.4. -/
theorem bumpPatch_spec :
    (∀ v : SemVer, v.pre = [] →
      bumpVersion (some v) Ex.patchS = some ⟨v.major, v.minor, (v.patch + 1) % 2 ^ 64, [], []⟩) ∧
    (∀ v : SemVer, v.pre ≠ [] →
      bumpVersion (some v) Ex.patchS = some ⟨v.major, v.minor, v.patch, [], []⟩) ∧
    bumpVersion (some Ex.ver123) Ex.patchS = some ⟨1, 2, 4, [], []⟩ := by
  refine ⟨?_, ?_, by decide⟩
  · intro v hp
    simp [bumpVersion, Ex.patchS, IncPatch, hp]
  · intro v hp
    simp [bumpVersion, Ex.patchS, IncPatch, hp]

/-- Witness for the amended claim C2 at 1.2.3 (no pre-release) and at
1.2.3-rc1 (with pre-release). -/
theorem bumpPatch_spec_witness :
    bumpVersion (some Ex.ver123) Ex.patchS =
      some ⟨Ex.ver123.major, Ex.ver123.minor, (Ex.ver123.patch + 1) % 2 ^ 64, [], []⟩ ∧
    bumpVersion (some Ex.verPre) Ex.patchS =
      some ⟨Ex.verPre.major, Ex.verPre.minor, Ex.verPre.patch, [], []⟩ :=
  ⟨bumpPatch_spec.1 Ex.ver123 (by decide), bumpPatch_spec.2.1 Ex.verPre (by decide)⟩

/-- Counterexample to claim C3 as stated: the tag 18446744073709551615.0.0
parses (its major component is the largest value ParseUint accepts), but a
major bump wraps the 64-bit component to 0, producing 0.0.0 rather than a
version with major component 18446744073709551615 + 1. -/
theorem bumpMajor_overflow_counterexample :
    NewVersion Ex.strMaxMajor = some Ex.verMaxMajor ∧
    bumpVersion (some Ex.verMaxMajor) Ex.majorS = some ⟨0, 0, 0, [], []⟩ ∧
    bumpVersion (some Ex.verMaxMajor) Ex.majorS ≠
      some ⟨Ex.verMaxMajor.major + 1, 0, 0, [], []⟩ :=
  ⟨by decide, by decide, by decide⟩

/-- Claim C3 (amended): bumping with kind major yields
((major + 1) mod 2^64, 0, 0) and bumping with kind minor yields
(major, (minor + 1) mod 2^64, 0), pre-release and build metadata cleared,
with an absent version treated as 0.0.0; in particular
bump(none, minor) = 0.1.0, bump(1.2.3, major) = 2.0.0 and
bump(1.2.3-rc1, minor) = 1.3.0. -/
theorem bumpMajorMinor_spec :
    (∀ v : Option SemVer,
      bumpVersion v Ex.majorS =
        some ⟨((v.getD zeroVer).major + 1) % 2 ^ 64, 0, 0, [], []⟩ ∧
      bumpVersion v Ex.minorS =
        some ⟨(v.getD zeroVer).major, ((v.getD zeroVer).minor + 1) % 2 ^ 64, 0, [], []⟩) ∧
    bumpVersion none Ex.minorS = some ⟨0, 1, 0, [], []⟩ ∧
    bumpVersion (some Ex.ver123) Ex.majorS = some ⟨2, 0, 0, [], []⟩ ∧
    bumpVersion (some Ex.verPre) Ex.minorS = some ⟨1, 3, 0, [], []⟩ := by
  refine ⟨?_, by decide, by decide, by decide⟩
  intro v
  constructor
  · simp [bumpVersion, Ex.majorS, IncMajor]
  · simp [bumpVersion, Ex.minorS, IncMinor]

/-- Claim C4: tag strings that fail the semantic-version grammar are
discarded silently — removing an unparseable ref anywhere in the list leaves
the selection result unchanged (fetchLatestTag is a total function, so no
run is aborted); when zero tag strings parse the selector yields none, and
the subsequent bump then starts from 0.0.0 for every bump kind. -/
theorem malformed_tags_discarded :
    (∀ (l1 l2 : List (List Char)) (r : List Char),
      NewVersion (trimPre refsTagsStr r) = none →
      fetchLatestTag (l1 ++ r :: l2) = fetchLatestTag (l1 ++ l2)) ∧
    (∀ refs : List (List Char),
      (∀ r ∈ refs, NewVersion (trimPre refsTagsStr r) = none) → fetchLatestTag refs = none) ∧
    (∀ bump : String, bumpVersion none bump = bumpVersion (some zeroVer) bump) := by
  refine ⟨?_, ?_, ?_⟩
  · intro l1 l2 r hr
    simp only [fetchLatestTag, List.filterMap_append, List.filterMap_cons, hr]
  · intro refs hall
    have hnil : refs.filterMap (fun r => NewVersion (trimPre refsTagsStr r)) = [] := by
      rw [List.filterMap_eq_nil_iff]
      exact hall
    simp only [fetchLatestTag, hnil]
    rfl
  · intro bump
    rfl

/-- Witness for C4: with two unparseable refs the selector returns none
(silently) and the bump then starts from 0.0.0, yielding 0.1.0 for minor. -/
theorem malformed_tags_discarded_witness :
    fetchLatestTag [Ex.badLine, Ex.orgArg] = none ∧
    bumpVersion none Ex.minorS = bumpVersion (some zeroVer) Ex.minorS ∧
    fetchLatestTag (Ex.tagsC1 ++ Ex.badLine :: []) = fetchLatestTag (Ex.tagsC1 ++ []) :=
  ⟨malformed_tags_discarded.2.1 [Ex.badLine, Ex.orgArg] (by decide),
   malformed_tags_discarded.2.2 Ex.minorS,
   malformed_tags_discarded.1 Ex.tagsC1 [] Ex.badLine (by decide)⟩

/-- Claim C5: the repository-list producer emits exactly one standard-output
line per repository, of the form github.com/FULLNAME followed by a space and
the proposed new version prefixed with v; end-to-end, for an organization
holding repository org/A with tags v1.0.0 and v1.1.0 and repository org/B
with no tags, bump kind minor produces exactly the lines
github.com/org/A v1.2.0 and github.com/org/B v0.1.0. -/
theorem fetcher_output_format :
    (∀ (bump : String) (gh : List (Fetcher.GhRepo × List (List Char))),
      (Fetcher.reposToStdOutput (Fetcher.fetchRepos bump gh)).length = gh.length ∧
      Fetcher.reposToStdOutput (Fetcher.fetchRepos bump gh) =
        gh.map fun gr => "github.com/".toList ++ gr.1.fullName ++
          ' ' :: versionToString (bumpVersion (fetchLatestTag gr.2) bump)) ∧
    Fetcher.mainFetcher [Ex.orgArg] Ex.tokenEx Ex.minorS Ex.ghC5 =
      (Except.ok [Ex.lineA, Ex.lineB],
        [ApiCall.listByOrg Ex.orgArg,
         ApiCall.listMatchingRefs Ex.orgArg Ex.repoA.name,
         ApiCall.listMatchingRefs Ex.orgArg Ex.repoB.name]) := by
  refine ⟨fun bump gh => ⟨?_, ?_⟩, by rfl⟩
  · simp [Fetcher.reposToStdOutput, Fetcher.fetchRepos]
  · simp [Fetcher.reposToStdOutput, Fetcher.fetchRepos]

/-- Claim C6 (the code evaluated at a failing input): the non-interactive
creator names its refs refs/tags/TAG, but the interactive variant builds the
ref name from "ref/tags/v" — missing the s of refs.  For the selected
repository iRepo (new tag 1.2.0) it issues a creation call for
ref/tags/v1.2.0, which differs from the prescribed refs/tags/v1.2.0; the
SHA argument is the one returned for the default branch, and the creator
side does use the refs/tags/ prefix. -/
theorem interactive_ref_name_bug :
    (Interactive.createTags Ex.commitShaI (fun _ => true) [Ex.iRepo]).1 =
      [ApiCall.createRef Interactive.orgStr Ex.iRepo.repo.name Ex.refWrong Ex.shaEx] ∧
    Ex.refWrong ≠ Ex.refRight ∧
    Creator.createTags Ex.commitShaEx
        [{ repo := Ex.getEx Ex.orgArg Ex.repoA.name, tag := ['v', '1', '.', '2', '.', '0'] }] =
      [ApiCall.createRef Ex.orgArg Ex.repoA.name Ex.refRight Ex.shaEx] :=
  ⟨by decide, by decide, by decide⟩

/-- Claim C7: every bump-kind value other than patch, minor and major is a
configuration error: with the organization argument present and the token
set, parseFlags stops with the bump error message, and the main flow reports
that error having issued zero API calls. -/
theorem parseFlags_rejects_bump :
    ∀ (bump : String), bump ≠ "patch" → bump ≠ "minor" → bump ≠ "major" →
    ∀ (o token : List Char) (gh : List (Fetcher.GhRepo × List (List Char))),
      token ≠ [] →
      Fetcher.parseFlags [o] token bump = Except.error (Fetcher.errBadBump bump) ∧
      Fetcher.mainFetcher [o] token bump gh =
        (Except.error (Fetcher.errBadBump bump), []) := by
  intro bump h1 h2 h3 o token gh htok
  have hp : Fetcher.parseFlags [o] token bump = Except.error (Fetcher.errBadBump bump) := by
    unfold Fetcher.parseFlags
    dsimp only
    rw [if_neg htok, if_neg (by simp [h1, h2, h3])]
  exact ⟨hp, by simp only [Fetcher.mainFetcher, hp]⟩

/-- Witness for C7: the bump kind oops with a well-formed command line is
rejected with the bump configuration error and no API calls. -/
theorem parseFlags_rejects_bump_witness :
    Fetcher.parseFlags [Ex.orgArg] Ex.tokenEx Ex.oopsS =
      Except.error (Fetcher.errBadBump Ex.oopsS) ∧
    Fetcher.mainFetcher [Ex.orgArg] Ex.tokenEx Ex.oopsS Ex.ghC5 =
      (Except.error (Fetcher.errBadBump Ex.oopsS), []) :=
  parseFlags_rejects_bump Ex.oopsS (by decide) (by decide) (by decide)
    Ex.orgArg Ex.tokenEx Ex.ghC5 (by decide)

theorem creator_fetchRepos_error (get : List Char → List Char → Creator.GhRepo) :
    ∀ (input : List (List Char)),
      (∃ line ∈ input, ∃ e, Creator.parseLine line = Except.error e) →
      ∃ e, Creator.fetchRepos get input = Except.error e := by
  intro input
  induction input with
  | nil =>
    intro h
    obtain ⟨line, hmem, _⟩ := h
    simp at hmem
  | cons l rest ih =>
    intro h
    cases hp : Creator.parseLine l with
    | error e =>
      refine ⟨e, ?_⟩
      unfold Creator.fetchRepos
      rw [hp]
    | ok res =>
      obtain ⟨org, nm, tg⟩ := res
      obtain ⟨line, hmem, e, he⟩ := h
      rcases List.mem_cons.mp hmem with h1 | h1
      · rw [h1, hp] at he
        exact absurd he (by simp)
      · obtain ⟨e2, he2⟩ := ih ⟨line, h1, e, he⟩
        refine ⟨e2, ?_⟩
        unfold Creator.fetchRepos
        rw [hp]
        dsimp only
        rw [he2]

/-- Claim C8: an input line of the tag creator is accepted exactly when it
consists of two space-separated tokens whose first token (after an optional
github.com/ prefix) is an org/name reference; with any malformed line in the
input, the run stops with an error and zero ref-creation calls are issued —
no tag is created for any line. -/
theorem creator_malformed_aborts :
    (∀ line : List Char,
      (∃ e, Creator.parseLine line = Except.error e) ↔
      ¬∃ repoURL tag org name, splitOnChar ' ' line = [repoURL, tag] ∧
        splitOnChar '/' (trimPre Creator.githubComStr repoURL) = [org, name]) ∧
    (∀ (token : List Char) (yes : Bool) (input : List (List Char))
      (get : List Char → List Char → Creator.GhRepo)
      (commitSha : List Char → List Char → List Char → List Char) (tty : Char),
      (∃ line ∈ input, ∃ e, Creator.parseLine line = Except.error e) →
      (∃ e, (Creator.mainCreator token yes input get commitSha tty).1 = Except.error e) ∧
      (Creator.mainCreator token yes input get commitSha tty).2 = []) := by
  constructor
  · intro line
    constructor
    · rintro ⟨e, he⟩ ⟨repoURL, tag, org, name, h1, h2⟩
      unfold Creator.parseLine at he
      rw [h1] at he
      dsimp only at he
      rw [h2] at he
      exact absurd he (by simp)
    · intro hno
      unfold Creator.parseLine
      cases hsp : splitOnChar ' ' line with
      | nil => exact ⟨Creator.errTokens line, rfl⟩
      | cons a t =>
        cases t with
        | nil => exact ⟨Creator.errTokens line, rfl⟩
        | cons b t2 =>
          cases t2 with
          | cons c t3 => exact ⟨Creator.errTokens line, rfl⟩
          | nil =>
            dsimp only
            cases hsp2 : splitOnChar '/' (trimPre Creator.githubComStr a) with
            | nil => exact ⟨Creator.errRepoURL line, rfl⟩
            | cons x u =>
              cases u with
              | nil => exact ⟨Creator.errRepoURL line, rfl⟩
              | cons y u2 =>
                cases u2 with
                | cons z u3 => exact ⟨Creator.errRepoURL line, rfl⟩
                | nil => exact absurd ⟨a, b, x, y, hsp, hsp2⟩ hno
  · intro token yes input get commitSha tty h
    by_cases htok : token = []
    · unfold Creator.mainCreator
      rw [if_pos htok]
      exact ⟨⟨errNoToken, rfl⟩, rfl⟩
    · by_cases hinput : input = []
      · rw [hinput] at h
        obtain ⟨line, hmem, _⟩ := h
        simp at hmem
      · obtain ⟨e, he⟩ := creator_fetchRepos_error get input h
        unfold Creator.mainCreator
        rw [if_neg htok, if_neg hinput, he]
        exact ⟨⟨e, rfl⟩, rfl⟩

/-- Witness for C8: the input whose second line is the single token garbage
makes the creator fail with no ref-creation calls. -/
theorem creator_malformed_aborts_witness :
    (∃ e, (Creator.mainCreator Ex.tokenEx false Ex.badInput Ex.getEx Ex.commitShaEx 'y').1 =
      Except.error e) ∧
    (Creator.mainCreator Ex.tokenEx false Ex.badInput Ex.getEx Ex.commitShaEx 'y').2 = [] :=
  creator_malformed_aborts.2 Ex.tokenEx false Ex.badInput Ex.getEx Ex.commitShaEx 'y'
    ⟨Ex.badLine, by decide, Creator.errTokens Ex.badLine, rfl⟩

theorem createTagsFrom_calls (commitSha : List Char → List Char → List Char)
    (ans : Nat → Bool) : ∀ (i : Nat) (repos : List Interactive.repo),
    (Interactive.createTagsFrom commitSha ans i repos).1 = repos.map fun r =>
      ApiCall.createRef Interactive.orgStr r.repo.name
        (Interactive.refTagsVStr ++ r.newTag.toStr)
        (commitSha r.repo.name r.repo.defaultBranch) := by
  intro i repos
  induction repos generalizing i with
  | nil => rfl
  | cons r rest ih => simp [Interactive.createTagsFrom, ih]

theorem createTagsFrom_skips (commitSha : List Char → List Char → List Char) :
    ∀ (i : Nat) (repos : List Interactive.repo),
    (Interactive.createTagsFrom commitSha (fun _ => false) i repos).2 =
      repos.map fun _ => Interactive.skipStr := by
  intro i repos
  induction repos generalizing i with
  | nil => rfl
  | cons r rest ih => simp [Interactive.createTagsFrom, ih]

/-- Claim C10: in the interactive tag creator the ref-creation call is issued
for every selected repository whatever the answers to the per-repository
confirmation prompts are — the calls are the same under any two answer
functions and there is exactly one call per selected repository; answering
no only prints a Skip warning. -/
theorem interactive_ignores_confirm :
    ∀ (commitSha : List Char → List Char → List Char) (ans1 ans2 : Nat → Bool)
      (repos : List Interactive.repo),
      (Interactive.createTags commitSha ans1 repos).1 =
        (Interactive.createTags commitSha ans2 repos).1 ∧
      (Interactive.createTags commitSha ans1 repos).1.length = repos.length ∧
      (Interactive.createTags commitSha (fun _ => false) repos).2 =
        repos.map fun _ => Interactive.skipStr := by
  intro commitSha ans1 ans2 repos
  refine ⟨?_, ?_, ?_⟩
  · rw [Interactive.createTags, Interactive.createTags,
      createTagsFrom_calls commitSha ans1, createTagsFrom_calls commitSha ans2]
  · rw [Interactive.createTags, createTagsFrom_calls commitSha ans1, List.length_map]
  · rw [Interactive.createTags, createTagsFrom_skips]

/-! ### Lemmas: parsing the formatted version back -/

theorem takeWhile_app {α : Type} (p : α → Bool) (l r : List α) (h : ∀ c ∈ l, p c = true) :
    (l ++ r).takeWhile p = l ++ r.takeWhile p := by
  induction l with
  | nil => simp
  | cons a t ih =>
    simp only [List.cons_append, List.takeWhile_cons, h a (by simp)]
    rw [ih fun c hc => h c (by simp [hc])]
    simp

theorem dropWhile_app {α : Type} (p : α → Bool) (l r : List α) (h : ∀ c ∈ l, p c = true) :
    (l ++ r).dropWhile p = r.dropWhile p := by
  induction l with
  | nil => simp
  | cons a t ih =>
    simp only [List.cons_append, List.dropWhile_cons, h a (by simp)]
    rw [ih fun c hc => h c (by simp [hc])]
    simp

theorem splitOnChar_ne_nil (sep : Char) : ∀ (p : List Char), splitOnChar sep p ≠ [] := by
  intro p
  induction p with
  | nil => simp [splitOnChar]
  | cons a t ih =>
    unfold splitOnChar
    split_ifs
    · simp
    · cases hsp : splitOnChar sep t with
      | nil => exact absurd hsp ih
      | cons s ss => simp

theorem mem_splitOnChar (sep : Char) : ∀ (p : List Char) (c : Char), c ∈ p →
    c = sep ∨ ∃ seg ∈ splitOnChar sep p, c ∈ seg := by
  intro p
  induction p with
  | nil => intro c hc; simp at hc
  | cons a t ih =>
    intro c hc
    unfold splitOnChar
    by_cases ha : a = sep
    · rw [if_pos ha]
      rcases List.mem_cons.mp hc with h1 | h1
      · left
        rw [h1, ha]
      · rcases ih c h1 with h2 | ⟨seg, hseg, hcseg⟩
        · left
          exact h2
        · right
          exact ⟨seg, List.mem_cons_of_mem _ hseg, hcseg⟩
    · rw [if_neg ha]
      cases hsp : splitOnChar sep t with
      | nil => exact absurd hsp (splitOnChar_ne_nil sep t)
      | cons s ss =>
        rcases List.mem_cons.mp hc with h1 | h1
        · right
          exact ⟨a :: s, by simp, by simp [h1]⟩
        · rcases ih c h1 with h2 | ⟨seg, hseg, hcseg⟩
          · left
            exact h2
          · rw [hsp] at hseg
            rcases List.mem_cons.mp hseg with h3 | h3
            · right
              refine ⟨a :: s, by simp, ?_⟩
              rw [h3] at hcseg
              exact List.mem_cons_of_mem a hcseg
            · right
              exact ⟨seg, by simp [h3], hcseg⟩

theorem allowedChar_ne_plus {c : Char} (h : allowedChar c = true) : (c != '+') = true := by
  simp only [bne_iff_ne, ne_eq]
  intro he
  rw [he] at h
  have hfalse : allowedChar '+' = false := by decide
  rw [hfalse] at h
  exact absurd h (by simp)

theorem pre_no_plus {p : List Char} (hr : regexIdents p = true) :
    ∀ c ∈ p, (c != '+') = true := by
  intro c hc
  rcases mem_splitOnChar '.' p c hc with h1 | ⟨seg, hseg, hcseg⟩
  · rw [h1]
    decide
  · have := List.all_eq_true.mp hr seg hseg
    simp only [Bool.and_eq_true] at this
    exact allowedChar_ne_plus (List.all_eq_true.mp this.2 c hcseg)

theorem validateMetadata_of_regex {m : List Char} (h : regexIdents m = true) :
    validateMetadata m = true := by
  unfold validateMetadata
  unfold regexIdents at h
  rw [List.all_eq_true] at h ⊢
  intro seg hseg
  have := h seg hseg
  simp only [Bool.and_eq_true] at this
  exact this.2

theorem parseOptDotNum_dot (d rest : List Char) (hd : ∀ c ∈ d, c.isDigit = true) (hne : d ≠ [])
    (hrest : rest.takeWhile Char.isDigit = [] ∧ rest.dropWhile Char.isDigit = rest) :
    parseOptDotNum ('.' :: (d ++ rest)) = some (some d, rest) := by
  have h0 : parseOptDotNum ('.' :: (d ++ rest)) =
      if ((d ++ rest).takeWhile Char.isDigit).isEmpty = true then none
      else some (some ((d ++ rest).takeWhile Char.isDigit),
        (d ++ rest).dropWhile Char.isDigit) := rfl
  rw [h0, takeWhile_app _ _ _ hd, hrest.1, List.append_nil, dropWhile_app _ _ _ hd, hrest.2,
    if_neg (by simp [hne])]

theorem parseVerTail_plus (m : List Char) (hm : regexIdents m = true) :
    parseVerTail ('+' :: m) = some ([], m) := by
  have h0 : parseVerTail ('+' :: m) =
      if regexIdents m = true then some ([], m) else none := rfl
  rw [h0, if_pos hm]

theorem parseVerTail_dash_nil (p : List Char) (hplus : ∀ c ∈ p, (c != '+') = true)
    (hrp : regexIdents p = true) : parseVerTail ('-' :: p) = some (p, []) := by
  have h0 : parseVerTail ('-' :: p) =
      if regexIdents (p.takeWhile (fun x => x != '+')) = true then
        match p.dropWhile (fun x => x != '+') with
        | [] => some (p.takeWhile (fun x => x != '+'), [])
        | '+' :: m => if regexIdents m = true then some (p.takeWhile (fun x => x != '+'), m)
            else none
        | _ => none
      else none := rfl
  have ht : p.takeWhile (fun x => x != '+') = p := by
    have := takeWhile_app (fun x => x != '+') p [] hplus
    simpa using this
  have hdr : p.dropWhile (fun x => x != '+') = [] := by
    have := dropWhile_app (fun x => x != '+') p [] hplus
    simpa using this
  rw [h0, ht, hdr, if_pos hrp]

theorem parseVerTail_dash_plus (p m : List Char) (hplus : ∀ c ∈ p, (c != '+') = true)
    (hrp : regexIdents p = true) (hm : regexIdents m = true) :
    parseVerTail ('-' :: (p ++ '+' :: m)) = some (p, m) := by
  have h0 : parseVerTail ('-' :: (p ++ '+' :: m)) =
      if regexIdents ((p ++ '+' :: m).takeWhile (fun x => x != '+')) = true then
        match (p ++ '+' :: m).dropWhile (fun x => x != '+') with
        | [] => some ((p ++ '+' :: m).takeWhile (fun x => x != '+'), [])
        | '+' :: m2 => if regexIdents m2 = true then
            some ((p ++ '+' :: m).takeWhile (fun x => x != '+'), m2) else none
        | _ => none
      else none := rfl
  have ht : (p ++ '+' :: m).takeWhile (fun x => x != '+') = p := by
    rw [takeWhile_app _ _ _ hplus]
    simp
  have hdr : (p ++ '+' :: m).dropWhile (fun x => x != '+') = '+' :: m := by
    rw [dropWhile_app _ _ _ hplus]
    simp
  rw [h0, ht, hdr, if_pos hrp]
  simp [hm]

theorem NewVersion_eval (body mj mn pt r2 r3 pre2 meta2 : List Char)
    (h1 : body.takeWhile Char.isDigit = mj)
    (h2 : parseOptDotNum (body.dropWhile Char.isDigit) = some (some mn, r2))
    (h3 : mj ≠ [])
    (h4 : parseOptDotNum r2 = some (some pt, r3))
    (h5 : parseVerTail r3 = some (pre2, meta2))
    (h6 : digitsToNat mj < 2 ^ 64) (h7 : digitsToNat mn < 2 ^ 64) (h8 : digitsToNat pt < 2 ^ 64)
    (h9 : pre2 = [] ∨ validatePrerelease pre2 = true)
    (h10 : meta2 = [] ∨ validateMetadata meta2 = true) :
    NewVersion ('v' :: body) =
      some ⟨digitsToNat mj, digitsToNat mn, digitsToNat pt, pre2, meta2⟩ := by
  have h0 : NewVersion ('v' :: body) =
      (if (body.takeWhile Char.isDigit).isEmpty = true then none
      else
        match parseOptDotNum (body.dropWhile Char.isDigit) with
        | none => none
        | some (mn2, r2b) =>
          match parseOptDotNum r2b with
          | none => none
          | some (pt2, r3b) =>
            match parseVerTail r3b with
            | none => none
            | some (pre3, meta3) =>
              if digitsToNat (body.takeWhile Char.isDigit) < 2 ^ 64 ∧
                  (match mn2 with | some d => digitsToNat d | none => 0) < 2 ^ 64 ∧
                  (match pt2 with | some d => digitsToNat d | none => 0) < 2 ^ 64 ∧
                  (pre3 = [] ∨ validatePrerelease pre3 = true) ∧
                  (meta3 = [] ∨ validateMetadata meta3 = true) then
                some ⟨digitsToNat (body.takeWhile Char.isDigit),
                  (match mn2 with | some d => digitsToNat d | none => 0),
                  (match pt2 with | some d => digitsToNat d | none => 0), pre3, meta3⟩
              else none) := rfl
  rw [h0, h1, if_neg (by simp [h3]), h2]
  dsimp only
  rw [h4]
  dsimp only
  rw [h5]
  dsimp only
  rw [if_pos ⟨h6, h7, h8, h9, h10⟩]

/-- Claim C9: parsing a valid version string and formatting the parsed
version yields a string that parses back to the identical version — the
round-trip is the identity on parsed versions, with the leading v added by
the formatter and accepted by the parser. -/
theorem parse_format_roundtrip :
    ∀ (s : List Char) (v : SemVer), NewVersion s = some v →
      NewVersion (versionToString (some v)) = some v := by
  intro s v hparse
  obtain ⟨hb1, hb2, hb3, hpre, hmeta⟩ := NewVersion_props hparse
  obtain ⟨M, mi, pa, pre, meta⟩ := v
  dsimp only at hb1 hb2 hb3 hpre hmeta
  have hbody : versionToString (some ⟨M, mi, pa, pre, meta⟩) =
      'v' :: (natDigits M ++ ('.' :: (natDigits mi ++ ('.' :: (natDigits pa ++
        ((if pre = [] then [] else '-' :: pre) ++
         (if meta = [] then [] else '+' :: meta))))))) := by
    simp [versionToString, SemVer.toStr]
  rw [hbody]
  have main : ∀ (tail pre2 meta2 : List Char),
      tail.takeWhile Char.isDigit = [] → tail.dropWhile Char.isDigit = tail →
      parseVerTail tail = some (pre2, meta2) →
      (pre2 = [] ∨ validatePrerelease pre2 = true) →
      (meta2 = [] ∨ validateMetadata meta2 = true) →
      NewVersion ('v' :: (natDigits M ++ ('.' :: (natDigits mi ++
          ('.' :: (natDigits pa ++ tail)))))) = some ⟨M, mi, pa, pre2, meta2⟩ := by
    intro tail pre2 meta2 ht1 ht2 hpt hv1 hv2
    have e1 : (natDigits M ++ ('.' :: (natDigits mi ++
        ('.' :: (natDigits pa ++ tail))))).takeWhile Char.isDigit = natDigits M := by
      rw [takeWhile_app _ _ _ (natDigits_all_digits M)]
      simp
    have e2 : (natDigits M ++ ('.' :: (natDigits mi ++
        ('.' :: (natDigits pa ++ tail))))).dropWhile Char.isDigit =
        '.' :: (natDigits mi ++ ('.' :: (natDigits pa ++ tail))) := by
      rw [dropWhile_app _ _ _ (natDigits_all_digits M)]
      simp
    have p2 : parseOptDotNum ('.' :: (natDigits pa ++ tail)) =
        some (some (natDigits pa), tail) :=
      parseOptDotNum_dot _ _ (natDigits_all_digits pa) (natDigits_ne_nil pa) ⟨ht1, ht2⟩
    have p1 : parseOptDotNum ('.' :: (natDigits mi ++ ('.' :: (natDigits pa ++ tail)))) =
        some (some (natDigits mi), '.' :: (natDigits pa ++ tail)) :=
      parseOptDotNum_dot _ _ (natDigits_all_digits mi) (natDigits_ne_nil mi) (by simp)
    have := NewVersion_eval
      (natDigits M ++ ('.' :: (natDigits mi ++ ('.' :: (natDigits pa ++ tail)))))
      (natDigits M) (natDigits mi) (natDigits pa)
      ('.' :: (natDigits pa ++ tail)) tail pre2 meta2
      e1 (by rw [e2]; exact p1) (natDigits_ne_nil M) p2 hpt
      (by rw [digitsToNat_natDigits]; exact hb1)
      (by rw [digitsToNat_natDigits]; exact hb2)
      (by rw [digitsToNat_natDigits]; exact hb3) hv1 hv2
    rw [this, digitsToNat_natDigits, digitsToNat_natDigits, digitsToNat_natDigits]
  by_cases hp0 : pre = []
  · by_cases hm0 : meta = []
    · rw [hp0, hm0, if_pos rfl, if_pos rfl, List.append_nil]
      exact main [] [] [] rfl rfl rfl (Or.inl rfl) (Or.inl rfl)
    · have hmr : regexIdents meta = true := hmeta.resolve_left hm0
      rw [hp0, if_pos rfl, if_neg hm0, List.nil_append]
      exact main ('+' :: meta) [] meta (by simp) (by simp)
        (parseVerTail_plus meta hmr) (Or.inl rfl)
        (Or.inr (validateMetadata_of_regex hmr))
  · obtain ⟨hpregex, hpval⟩ := hpre.resolve_left hp0
    have hplus := pre_no_plus hpregex
    by_cases hm0 : meta = []
    · rw [hm0, if_neg hp0, if_pos rfl, List.append_nil]
      exact main ('-' :: pre) pre []
        (by simp) (by simp)
        (parseVerTail_dash_nil pre hplus hpregex) (Or.inr hpval) (Or.inl rfl)
    · have hmr : regexIdents meta = true := hmeta.resolve_left hm0
      rw [if_neg hp0, if_neg hm0, List.cons_append]
      exact main ('-' :: (pre ++ '+' :: meta)) pre meta
        (by simp) (by simp)
        (parseVerTail_dash_plus pre meta hplus hpregex hmr)
        (Or.inr hpval) (Or.inr (validateMetadata_of_regex hmr))

/-- Witness for C9 at the valid version string 1.2.3-rc1. -/
theorem parse_format_roundtrip_witness :
    NewVersion (versionToString (some Ex.verPre)) = some Ex.verPre :=
  parse_format_roundtrip Ex.strRc1 Ex.verPre (by decide)
